import Mathlib

/-!
HashTable_simple: a chained hash table (src/main.cpp)

Shallow embedding of the class template `HashTable<T, load_factor_perc, Hasher>`.

* `std::vector<Chain>` with `Chain = std::list<T>` is a `List (List T)`.
* The two `std::size_t` fields `used` and `capacity` are natural numbers.  A table
  that holds `2^64` list nodes does not fit a 64-bit address space, so `++used` and
  `capacity * 3` never wrap in an execution and are embedded without a modulus;
  `--used` runs only after `std::find` found an entry, when `used` is at least 1 in
  every table the class can build, and is the subtraction of 1.
* An operation whose C++ behaviour is undefined or that throws (`% 0`, an index past
  the end of the vector, signed overflow, a negative size) returns `none`.
* The template parameter `Hasher` is the function `hash : T → Nat`.
* A `std::string` is the list of its bytes, and `char` is signed.  The hashers work
  on `uint32_t` and 64-bit values, reduced modulo `2^32` and `2^64` at every step.
* An output stream is the `String` written to it so far, one character per byte.
-/

namespace HashTableSimple

/-- The element type `uint8_t`. -/
abbrev Byte := Fin 256

/-- Embeds `hasher<uint8_t>::my_hash` (main.cpp:15): the value itself. -/
def hasher_uint8.my_hash (value : Byte) : Nat := value.val

/-- The loop of `hasher<uint64_t>::my_hash` (main.cpp:24-30) with `rounds` passes
still to run, on the current `hash` and `value`; `std::size_t` and `uint64_t`
arithmetic wraps at 64 bits. -/
def hasher_uint64.my_hash_loop : Nat → Nat → Nat → Nat
  | 0, hash, _ => hash
  | rounds + 1, hash, value =>
    let hash := (hash + (value &&& 0xFF) % 2 ^ 8) % 2 ^ 64
    let hash := (hash + (hash <<< 10) % 2 ^ 64) % 2 ^ 64
    let hash := hash ^^^ (hash >>> 6)
    hasher_uint64.my_hash_loop rounds hash (value >>> 8)

/-- Embeds `hasher<uint64_t>::my_hash` (main.cpp:21-36). -/
def hasher_uint64.my_hash (value : Nat) : Nat :=
  let hash := hasher_uint64.my_hash_loop 8 0 (value % 2 ^ 64)
  let hash := (hash + (hash <<< 3) % 2 ^ 64) % 2 ^ 64
  let hash := hash ^^^ (hash >>> 11)
  let hash := (hash + (hash <<< 15) % 2 ^ 64) % 2 ^ 64
  hash

/-- The `int` value of a `char` holding the byte `c`, as a 32-bit two's complement
pattern (`char` is signed: bytes from 128 on are negative and sign-extended). -/
def char_bits (c : Byte) : Nat :=
  if c.val < 128 then c.val else 2 ^ 32 - 2 ^ 8 + c.val

/-- The update `(num << 5) + num + (num >> 27) ^ ptr` of main.cpp:51 and 57 in
`uint32_t` arithmetic: the sum is formed first, then the exclusive or. -/
def hasher_string.mix (num ptr : Nat) : Nat :=
  (((num <<< 5) % 2 ^ 32 + num + (num >>> 27)) % 2 ^ 32) ^^^ ptr

/-- The loop of `hasher<std::string>::my_hash` (main.cpp:46-59) from index `i` on,
with the current `num` and `num2`.  A `std::string` is the list of its bytes and
`value[k]` is the lookup `value[k]?`, which is `none` past the end.  The loop
also stops with `none` when `fuel` passes did not reach the end of the string. -/
def hasher_string.my_hash_loop (value : List Byte) :
    Nat → Nat → Nat → Nat → Option (Nat × Nat)
  | 0, i, num, num2 => if i < value.length then none else some (num, num2)
  | fuel + 1, i, num, num2 =>
    if i < value.length then
      (value[i]?).bind fun c0 =>
      (if i + 1 < value.length then
          (value[i + 1]?).map fun c1 => (char_bits c0 <<< 16) % 2 ^ 32 ||| char_bits c1
        else some ((char_bits c0 <<< 16) % 2 ^ 32)).bind fun ptr0 =>
      (if i + 2 < value.length then
          (value[i + 2]?).bind fun c2 =>
          (if i + 3 < value.length then
              (value[i + 3]?).map fun c3 => (char_bits c2 <<< 16) % 2 ^ 32 ||| char_bits c3
            else some ((char_bits c2 <<< 16) % 2 ^ 32)).map fun ptr1 =>
            hasher_string.mix num2 ptr1
        else some num2).bind fun num2_next =>
      hasher_string.my_hash_loop value fuel (i + 4) (hasher_string.mix num ptr0) num2_next
    else some (num, num2)

/-- Embeds `hasher<std::string>::my_hash` (main.cpp:42-62).  The returned sum and
product are formed in `uint32_t` (the literal 1566083941 is an `int`, converted
to `unsigned int`), and the result is then widened to `std::size_t`. -/
def hasher_string.my_hash (value : List Byte) : Option Nat :=
  (hasher_string.my_hash_loop value value.length 0 352654597 352654597).map fun nums =>
    (nums.1 + (nums.2 * 1566083941) % 2 ^ 32) % 2 ^ 32

/-- The data members of `HashTable` (main.cpp:67, 125-126). -/
structure HashTable (T : Type) where
  table : List (List T)
  used : Nat
  capacity : Nat
deriving DecidableEq, Repr

/-- The two mutating calls a client can make on a table. -/
inductive Op (T : Type) where
  | insert (value : T)
  | remove (value : T)
deriving DecidableEq, Repr

/-- The calls a client can make on a table, the read-only `contains` included. -/
inductive Call (T : Type) where
  | insert (value : T)
  | contains (value : T)
  | remove (value : T)
deriving DecidableEq, Repr

section Engine

variable {T : Type} [DecidableEq T]

/-- Embeds the constructor `HashTable(uint8_t capacity)` (main.cpp:71-75).
The argument is a `uint8_t`; `capacity * load_factor_perc / 100` is computed in
`int` (truncating division) and handed to `vector::resize`.  The result is `none`
when the `int` product overflows and when the quotient is negative (as a
`size_t` it exceeds what `vector::resize` accepts). -/
def HashTable.create (load_factor_perc : Int) (capacity : Nat) : Option (HashTable T) :=
  let cap : Nat := capacity % 256
  let prod : Int := (cap : Int) * load_factor_perc
  if prod < -(2 : Int) ^ 31 ∨ (2 : Int) ^ 31 ≤ prod then none
  else
    let n : Int := Int.tdiv prod 100
    if n < 0 then none
    else some { table := List.replicate n.toNat [], used := 0, capacity := cap }

/-- Embeds `get_chain` (main.cpp:105-108): the index `key` of the chain that the
returned reference designates. -/
def HashTable.get_chain (hash : T → Nat) (t : HashTable T) (value : T) : Option Nat :=
  if t.table.length = 0 then none
  else some (hash value % t.table.length)

/-- One pass of the inner loop body of `resize` (main.cpp:116-118). -/
def HashTable.resize_place (hash : T → Nat) (new_size : Nat)
    (new_table : List (List T)) (val : T) : Option (List (List T)) :=
  if new_size = 0 then none
  else
    let key := hash val % new_size
    (new_table[key]?).map (fun chain => new_table.set key (chain ++ [val]))

/-- Embeds `resize` (main.cpp:110-123). -/
def HashTable.resize (hash : T → Nat) (t : HashTable T) : Option (HashTable T) :=
  let new_size := t.capacity * 3
  let new_table : List (List T) := List.replicate new_size []
  (t.table.foldlM
      (fun (nt : List (List T)) (chain : List T) =>
        chain.foldlM (HashTable.resize_place hash new_size) nt)
      new_table).map
    (fun nt => { table := nt, used := t.used, capacity := new_size })

/-- Embeds `insert` (main.cpp:79-87). -/
def HashTable.insert (hash : T → Nat) (t : HashTable T) (value : T) :
    Option (HashTable T) :=
  (if t.used = t.capacity then HashTable.resize hash t else some t).bind fun t1 =>
  (HashTable.get_chain hash t1 value).bind fun key =>
  (t1.table[key]?).map fun chain_with_key =>
    { t1 with table := t1.table.set key (chain_with_key ++ [value]), used := t1.used + 1 }

/-- Embeds `contains` (main.cpp:89-92): `std::find` returns the position of the
first equal entry, or the end of the chain. -/
def HashTable.contains (hash : T → Nat) (t : HashTable T) (value : T) : Option Bool :=
  (HashTable.get_chain hash t value).bind fun key =>
  (t.table[key]?).map fun chain_with_key =>
    decide (chain_with_key.indexOf value ≠ chain_with_key.length)

/-- Embeds `remove` (main.cpp:94-101). -/
def HashTable.remove (hash : T → Nat) (t : HashTable T) (value : T) :
    Option (HashTable T) :=
  (HashTable.get_chain hash t value).bind fun key =>
  (t.table[key]?).map fun chain_with_key =>
    let iter := chain_with_key.indexOf value
    if iter ≠ chain_with_key.length then
      { t with table := t.table.set key (chain_with_key.eraseIdx iter), used := t.used - 1 }
    else t

/-- Performs one client call. -/
def HashTable.step (hash : T → Nat) (t : HashTable T) : Op T → Option (HashTable T)
  | Op.insert value => HashTable.insert hash t value
  | Op.remove value => HashTable.remove hash t value

/-- Performs a sequence of client calls, first to last. -/
def HashTable.run (hash : T → Nat) (t : HashTable T) (ops : List (Op T)) :
    Option (HashTable T) :=
  ops.foldlM (HashTable.step hash) t

/-- The client loop `if (contains(value)) remove(value)` (main.cpp:164-165) repeated
until `contains` answers false: the number of times it answered true.  It stops
with `none` when `fuel` rounds did not reach a false answer. -/
def HashTable.drain (hash : T → Nat) (value : T) : Nat → HashTable T → Option Nat
  | 0, _ => none
  | fuel + 1, t =>
    (HashTable.contains hash t value).bind fun found =>
      if found then
        (HashTable.remove hash t value).bind fun t1 =>
          (HashTable.drain hash value fuel t1).map (· + 1)
      else some 0

/-- The number of calls `remove(value)` in `ops`, run from `t`, that found an entry
(`contains(value)` was true when the call was made). -/
def HashTable.removals (hash : T → Nat) (value : T) :
    HashTable T → List (Op T) → Option Nat
  | _, [] => some 0
  | t, op :: ops =>
    (HashTable.step hash t op).bind fun t1 =>
      (HashTable.removals hash value t1 ops).map fun j =>
        if op = Op.remove value ∧ HashTable.contains hash t value = some true then j + 1
        else j

/-- The rows written by the loop of `operator<<` (main.cpp:132-140): the running
`counter` paired with the chain printed after it. -/
def dump_rows : Nat → List (List T) → List (Nat × List T)
  | _, [] => []
  | counter, chain :: rest => (counter, chain) :: dump_rows (counter + 1) rest

/-- Performs one client call, `contains` included; `contains` leaves the table
as it is. -/
def HashTable.call (hash : T → Nat) (t : HashTable T) : Call T → Option (HashTable T)
  | Call.insert value => HashTable.insert hash t value
  | Call.contains value => (HashTable.contains hash t value).map fun _ => t
  | Call.remove value => HashTable.remove hash t value

/-- Performs a sequence of client calls of the three kinds, first to last. -/
def HashTable.calls (hash : T → Nat) (t : HashTable T) (cs : List (Call T)) :
    Option (HashTable T) :=
  cs.foldlM (HashTable.call hash) t

/-- The number of calls in `ops`, run from `t`, that entered the branch
`if (used == capacity) resize();` of `insert` (main.cpp:80-82). -/
def HashTable.growths (hash : T → Nat) : HashTable T → List (Op T) → Option Nat
  | _, [] => some 0
  | t, op :: ops =>
    (HashTable.step hash t op).bind fun t1 =>
      (HashTable.growths hash t1 ops).map fun g =>
        match op with
        | Op.insert _ => if t.used = t.capacity then g + 1 else g
        | Op.remove _ => g

/-- The text written by the inner loop of `operator<<` (main.cpp:135-137) after
`out`: every value of the chain, each followed by a tab.  `render` is the
`operator<<` of the element type. -/
def dump_chain (render : T → String) (out : String) (chain : List T) : String :=
  chain.foldl (fun out value => out ++ render value ++ "\t") out

/-- The text written by the outer loop of `operator<<` (main.cpp:133-140) after
`out`, from the running `counter` on; `std::endl` ends the line. -/
def dump_loop (render : T → String) : String → Nat → List (List T) → String
  | out, _, [] => out
  | out, counter, chain :: rest =>
    dump_loop render (dump_chain render (out ++ toString counter ++ ":\t") chain ++ "\n")
      (counter + 1) rest

/-- Embeds `operator<<` for `HashTable` (main.cpp:129-142): the content of the
stream after the dump was written behind `out`.  The sizes and the counter are
`std::size_t` and are written in decimal. -/
def HashTable.dump (render : T → String) (out : String) (t : HashTable T) : String :=
  dump_loop render
    (out ++ "Hash Table. Chains:" ++ toString t.table.length ++ "\tElements: "
      ++ toString t.used ++ "\n")
    0 t.table

/-- The dump in the words of the serialization format: the header line, then for
every bucket index in order the line made of the index, a colon, a tab, the
values of the chain each followed by a tab, and a newline. -/
def HashTable.dump_format (render : T → String) (t : HashTable T) : String :=
  "Hash Table. Chains:" ++ toString t.table.length ++ "\tElements: " ++ toString t.used
    ++ "\n"
    ++ String.join ((dump_rows 0 t.table).map fun row =>
        toString row.1 ++ ":\t" ++ String.join (row.2.map fun value => render value ++ "\t")
          ++ "\n")

/-- The chain `bucket(value)`: the chain that `get_chain` returns (main.cpp:107). -/
def HashTable.bucket (hash : T → Nat) (t : HashTable T) (value : T) : Option (List T) :=
  (HashTable.get_chain hash t value).bind fun key => t.table[key]?

/-- Closed form of the bucket array built by the loops of `resize`: chain `k` holds
the values of `xs` whose hash modulo `n` is `k`, in the order of `xs`. -/
def rebucket (hash : T → Nat) (n : Nat) (xs : List T) : List (List T) :=
  (List.range n).map fun k => xs.filter fun v => decide (hash v % n = k)

/-- Closed form of the state left by `resize`. -/
def HashTable.grown (hash : T → Nat) (t : HashTable T) : HashTable T :=
  { table := rebucket hash (t.capacity * 3) t.table.flatten,
    used := t.used, capacity := t.capacity * 3 }

/-- Closed form of the last three statements of `insert` (main.cpp:84-86). -/
def HashTable.push (hash : T → Nat) (t : HashTable T) (value : T) : HashTable T :=
  { t with
    table := t.table.set (hash value % t.table.length)
      (t.table.getD (hash value % t.table.length) [] ++ [value]),
    used := t.used + 1 }

/-- Closed form of `remove` when the value is found: the first equal entry of
the chain is erased. -/
def HashTable.pull (hash : T → Nat) (t : HashTable T) (value : T) : HashTable T :=
  { t with
    table := t.table.set (hash value % t.table.length)
      ((t.table.getD (hash value % t.table.length) []).erase value),
    used := t.used - 1 }

/-- Every stored value sits in the chain whose index is its hash modulo the
bucket count. -/
def HashTable.WellPlaced (hash : T → Nat) (t : HashTable T) : Prop :=
  ∀ (i : Nat) (chain : List T), t.table[i]? = some chain →
    ∀ v ∈ chain, hash v % t.table.length = i

/-- The state invariant kept by every client call. -/
structure HashTable.Inv (hash : T → Nat) (t : HashTable T) : Prop where
  buckets_pos : 1 ≤ t.table.length
  capacity_pos : 1 ≤ t.capacity
  placed : HashTable.WellPlaced hash t
  used_eq : t.used = t.table.flatten.length

end Engine

/-- The `operator<<` of the standard stream for an `unsigned char` (the element
type `uint8_t`): the single character whose code is the byte. -/
def ostream_uint8 (value : Byte) : String :=
  String.singleton (Char.ofNat value.val)

/-- The `operator<<` of the standard stream for a `uint64_t`: the decimal numeral. -/
def ostream_uint64 (value : Nat) : String :=
  toString (value % 2 ^ 64)

/-- The `operator<<` of the standard stream for a `std::string`: its characters, as
they are. -/
def ostream_string (value : List Byte) : String :=
  String.mk (value.map fun c => Char.ofNat c.val)

/-- The table `hash_table_uint8` of `main` right after its construction
`HashTable<uint8_t, 75> hash_table_uint8(5)` (main.cpp:150). -/
def hash_table_uint8 : HashTable Byte :=
  { table := [[], [], []], used := 0, capacity := 5 }

/-- The table `hash_table_uint8` of `main` after four rounds of the loop at
main.cpp:153-155 (the bytes 0, 1, 2, 3 are stored). -/
def hash_table_uint8_four : HashTable Byte :=
  { table := [[0, 3], [1], [2]], used := 4, capacity := 5 }

/-- The table `hash_table_uint8` of `main` after the loop that inserts the bytes
0, 1, 2, 3, 4 (main.cpp:153-155). -/
def hash_table_uint8_filled : HashTable Byte :=
  { table := [[0, 3], [1, 4], [2]], used := 5, capacity := 5 }

end HashTableSimple

namespace HashTableSimple

set_option linter.unusedSectionVars false

section Lists

variable {T : Type} [DecidableEq T]

theorem flatten_set_append_perm (L : List (List T)) (i : Nat) (c : List T) (v : T)
    (h : L[i]? = some c) : List.Perm (L.set i (c ++ [v])).flatten (v :: L.flatten) := by
  induction L generalizing i with
  | nil => simp at h
  | cons c0 L ih =>
    cases i with
    | zero =>
      simp at h
      subst h
      simp only [List.set_cons_zero, List.flatten_cons, List.append_assoc]
      refine List.Perm.trans ?_ (List.perm_middle)
      simp
    | succ i =>
      simp at h
      simp only [List.set_cons_succ, List.flatten_cons]
      refine List.Perm.trans (List.Perm.append_left c0 (ih i h)) ?_
      exact List.perm_middle

theorem flatten_set_erase_perm (L : List (List T)) (i : Nat) (c : List T) (v : T)
    (h : L[i]? = some c) (hv : v ∈ c) :
    List.Perm (v :: (L.set i (c.erase v)).flatten) L.flatten := by
  induction L generalizing i with
  | nil => simp at h
  | cons c0 L ih =>
    cases i with
    | zero =>
      simp at h
      subst h
      simp only [List.set_cons_zero, List.flatten_cons]
      have := List.perm_cons_erase hv
      exact (List.Perm.append_right L.flatten this).symm
    | succ i =>
      simp at h
      simp only [List.set_cons_succ, List.flatten_cons]
      exact List.Perm.trans (List.perm_middle.symm) (List.Perm.append_left c0 (ih i h))

end Lists

section Growth

variable {T : Type} [DecidableEq T]

theorem resize_place_foldlM (hash : T → Nat) (n : Nat) (hn : 0 < n) (xs : List T) :
    ∀ nt : List (List T), nt.length = n →
      xs.foldlM (HashTable.resize_place hash n) nt
        = some (nt.mapIdx fun k c => c ++ xs.filter fun v => decide (hash v % n = k)) := by
  induction xs with
  | nil =>
    intro nt _
    simp only [List.foldlM_nil, List.filter_nil, List.append_nil]
    congr 1
    apply List.ext_getElem <;> simp
  | cons x xs ih =>
    intro nt hlen
    have hk : hash x % n < nt.length := by rw [hlen]; exact Nat.mod_lt _ hn
    rw [List.foldlM_cons]
    have hstep : HashTable.resize_place hash n nt x
        = some (nt.set (hash x % n) (nt[hash x % n] ++ [x])) := by
      simp [HashTable.resize_place, Nat.pos_iff_ne_zero.mp hn, List.getElem?_eq_getElem hk]
    rw [hstep]
    simp only [Option.some_bind, Option.bind_eq_bind]
    rw [ih _ (by simp [hlen])]
    congr 1
    apply List.ext_getElem
    · simp
    · intro k h1 h2
      simp only [List.getElem_mapIdx]
      by_cases hkk : hash x % n = k
      · subst hkk
        simp
      · simp [List.getElem_set_ne hkk, hkk]

theorem foldlM_chains (f : List (List T) → T → Option (List (List T))) (L : List (List T)) :
    ∀ init : List (List T),
      L.foldlM (fun (nt : List (List T)) (chain : List T) => chain.foldlM f nt) init
        = L.flatten.foldlM f init := by
  induction L with
  | nil => intro init; rfl
  | cons c L ih =>
    intro init
    simp only [List.foldlM_cons, List.flatten_cons, List.foldlM_append]
    congr 1
    funext nt
    exact ih nt

theorem resize_eq (hash : T → Nat) (t : HashTable T) (hc : 1 ≤ t.capacity) :
    HashTable.resize hash t = some
      { table := rebucket hash (t.capacity * 3) t.table.flatten,
        used := t.used, capacity := t.capacity * 3 } := by
  unfold HashTable.resize
  simp only
  rw [foldlM_chains, resize_place_foldlM hash _ (by omega) _ _ (by simp)]
  simp only [Option.map_some']
  congr 2
  apply List.ext_getElem <;> simp [rebucket]

end Growth

section Calls

variable {T : Type} [DecidableEq T]

theorem getElem?_key (hash : T → Nat) (t : HashTable T) (v : T) (hB : 1 ≤ t.table.length) :
    t.table[hash v % t.table.length]?
      = some (t.table.getD (hash v % t.table.length) []) := by
  have hk : hash v % t.table.length < t.table.length := Nat.mod_lt _ hB
  simp [List.getD_eq_getElem?_getD, List.getElem?_eq_getElem hk]

theorem get_chain_eq (hash : T → Nat) (t : HashTable T) (v : T) (hB : 1 ≤ t.table.length) :
    HashTable.get_chain hash t v = some (hash v % t.table.length) := by
  simp [HashTable.get_chain, Nat.pos_iff_ne_zero.mp hB]

theorem bucket_eq (hash : T → Nat) (t : HashTable T) (v : T) (hB : 1 ≤ t.table.length) :
    HashTable.bucket hash t v = some (t.table.getD (hash v % t.table.length) []) := by
  simp only [HashTable.bucket, get_chain_eq hash t v hB, Option.some_bind]
  exact getElem?_key hash t v hB

theorem resize_eq_grown (hash : T → Nat) (t : HashTable T) (hc : 1 ≤ t.capacity) :
    HashTable.resize hash t = some (HashTable.grown hash t) :=
  resize_eq hash t hc

theorem insert_of_ne (hash : T → Nat) (t : HashTable T) (v : T) (hB : 1 ≤ t.table.length)
    (hne : t.used ≠ t.capacity) :
    HashTable.insert hash t v = some (HashTable.push hash t v) := by
  simp only [HashTable.insert, hne, if_false, get_chain_eq hash t v hB, Option.some_bind,
    getElem?_key hash t v hB, Option.map_some', HashTable.push]

theorem grown_length (hash : T → Nat) (t : HashTable T) :
    (HashTable.grown hash t).table.length = t.capacity * 3 := by
  simp [HashTable.grown, rebucket]

theorem insert_of_eq (hash : T → Nat) (t : HashTable T) (v : T) (hc : 1 ≤ t.capacity)
    (heq : t.used = t.capacity) :
    HashTable.insert hash t v = some (HashTable.push hash (HashTable.grown hash t) v) := by
  have hB : 1 ≤ (HashTable.grown hash t).table.length := by
    rw [grown_length]; omega
  simp only [HashTable.insert, heq, if_true, resize_eq_grown hash t hc,
    get_chain_eq hash _ v hB, Option.some_bind, getElem?_key hash _ v hB, Option.map_some',
    HashTable.push]

theorem contains_eq (hash : T → Nat) (t : HashTable T) (v : T) (hB : 1 ≤ t.table.length) :
    HashTable.contains hash t v
      = some (decide (v ∈ t.table.getD (hash v % t.table.length) [])) := by
  simp only [HashTable.contains, get_chain_eq hash t v hB, getElem?_key hash t v hB,
    Option.some_bind, Option.map_some', Option.some.injEq, decide_eq_decide]
  rw [← List.indexOf_lt_length]
  have := @List.indexOf_le_length _ _ v (t.table.getD (hash v % t.table.length) [])
  omega

theorem remove_of_mem (hash : T → Nat) (t : HashTable T) (v : T) (hB : 1 ≤ t.table.length)
    (hv : v ∈ t.table.getD (hash v % t.table.length) []) :
    HashTable.remove hash t v = some (HashTable.pull hash t v) := by
  have h1 := List.indexOf_lt_length.2 hv
  simp only [HashTable.remove, get_chain_eq hash t v hB, Option.some_bind,
    getElem?_key hash t v hB, Option.map_some', HashTable.pull, ne_eq, Nat.ne_of_lt h1,
    not_false_eq_true, if_true, List.eraseIdx_indexOf_eq_erase]

theorem remove_of_not_mem (hash : T → Nat) (t : HashTable T) (v : T)
    (hB : 1 ≤ t.table.length)
    (hv : v ∉ t.table.getD (hash v % t.table.length) []) :
    HashTable.remove hash t v = some t := by
  have h1 : List.indexOf v (t.table.getD (hash v % t.table.length) [])
      = (t.table.getD (hash v % t.table.length) []).length := by
    have h2 := @List.indexOf_le_length _ _ v (t.table.getD (hash v % t.table.length) [])
    have h3 := (List.indexOf_lt_length (a := v)
      (l := t.table.getD (hash v % t.table.length) [])).not.2 hv
    omega
  simp only [HashTable.remove, get_chain_eq hash t v hB, Option.some_bind,
    getElem?_key hash t v hB, Option.map_some', ne_eq, h1, not_true_eq_false, if_false]

end Calls

section Invariant

variable {T : Type} [DecidableEq T]

theorem resize_place_perm (hash : T → Nat) (n : Nat) (nt r : List (List T)) (x : T)
    (h : HashTable.resize_place hash n nt x = some r) :
    List.Perm r.flatten (x :: nt.flatten) := by
  unfold HashTable.resize_place at h
  split at h
  · simp at h
  · simp only [Option.map_eq_some'] at h
    obtain ⟨c, hc, hr⟩ := h
    subst hr
    exact flatten_set_append_perm nt _ c x hc

theorem resize_place_foldlM_perm (hash : T → Nat) (n : Nat) (xs : List T) :
    ∀ nt r : List (List T), xs.foldlM (HashTable.resize_place hash n) nt = some r →
      List.Perm r.flatten (nt.flatten ++ xs) := by
  induction xs with
  | nil =>
    intro nt r h
    simp only [List.foldlM_nil] at h
    cases h
    simp
  | cons x xs ih =>
    intro nt r h
    rw [List.foldlM_cons] at h
    cases hs : HashTable.resize_place hash n nt x with
    | none => rw [hs] at h; simp at h
    | some nt1 =>
      rw [hs] at h
      simp only [Option.some_bind, Option.bind_eq_bind] at h
      have h1 := ih nt1 r h
      have h2 := resize_place_perm hash n nt nt1 x hs
      refine h1.trans ?_
      refine (List.Perm.append_right xs h2).trans ?_
      exact List.perm_middle.symm

theorem foldlM_replicate (hash : T → Nat) (n : Nat) (hn : 0 < n) (xs : List T) :
    xs.foldlM (HashTable.resize_place hash n) (List.replicate n [])
      = some (rebucket hash n xs) := by
  rw [resize_place_foldlM hash n hn xs _ (by simp)]
  congr 1
  apply List.ext_getElem <;> simp [rebucket]

theorem flatten_replicate_nil (n : Nat) : (List.replicate n ([] : List T)).flatten = [] := by
  induction n with
  | zero => rfl
  | succ n ih => simp [List.replicate_succ, ih]

theorem rebucket_flatten_perm (hash : T → Nat) (n : Nat) (hn : 0 < n) (xs : List T) :
    List.Perm (rebucket hash n xs).flatten xs := by
  have h := resize_place_foldlM_perm hash n xs _ _ (foldlM_replicate hash n hn xs)
  simpa [flatten_replicate_nil] using h

theorem rebucket_length (hash : T → Nat) (n : Nat) (xs : List T) :
    (rebucket hash n xs).length = n := by
  simp [rebucket]

theorem rebucket_getElem? (hash : T → Nat) (n : Nat) (xs : List T) (k : Nat) (hk : k < n) :
    (rebucket hash n xs)[k]? = some (xs.filter fun v => decide (hash v % n = k)) := by
  simp [rebucket, List.getElem?_range hk]

theorem wellPlaced_grown (hash : T → Nat) (t : HashTable T) :
    HashTable.WellPlaced hash (HashTable.grown hash t) := by
  intro i chain hi v hv
  have hlt : i < t.capacity * 3 := by
    have := (List.getElem?_eq_some_iff.1 hi).1
    simpa [HashTable.grown, rebucket_length] using this
  simp only [HashTable.grown] at hi
  rw [rebucket_getElem? hash _ _ i hlt] at hi
  cases hi
  simp only [List.mem_filter, decide_eq_true_eq] at hv
  simpa [HashTable.grown, rebucket_length] using hv.2

theorem wellPlaced_push (hash : T → Nat) (t : HashTable T) (v : T)
    (hB : 1 ≤ t.table.length) (hw : HashTable.WellPlaced hash t) :
    HashTable.WellPlaced hash (HashTable.push hash t v) := by
  intro i chain hi w hw1
  simp only [HashTable.push, List.length_set] at hi ⊢
  rw [List.getElem?_set] at hi
  split at hi
  · next hki =>
    split at hi
    · cases hi
      rcases List.mem_append.1 hw1 with h | h
      · rw [← hki]
        exact hw _ _ (getElem?_key hash t v hB) w h
      · simp only [List.mem_singleton] at h
        rw [h, hki]
    · cases hi
  · exact hw i chain hi w hw1

theorem wellPlaced_pull (hash : T → Nat) (t : HashTable T) (v : T)
    (hB : 1 ≤ t.table.length) (hw : HashTable.WellPlaced hash t) :
    HashTable.WellPlaced hash (HashTable.pull hash t v) := by
  intro i chain hi w hw1
  simp only [HashTable.pull, List.length_set] at hi ⊢
  rw [List.getElem?_set] at hi
  split at hi
  · next hki =>
    split at hi
    · cases hi
      rw [← hki]
      exact hw _ _ (getElem?_key hash t v hB) w (List.mem_of_mem_erase hw1)
    · cases hi
  · exact hw i chain hi w hw1

theorem push_flatten_perm (hash : T → Nat) (t : HashTable T) (v : T)
    (hB : 1 ≤ t.table.length) :
    List.Perm (HashTable.push hash t v).table.flatten (v :: t.table.flatten) :=
  flatten_set_append_perm t.table _ _ v (getElem?_key hash t v hB)

theorem pull_flatten_perm (hash : T → Nat) (t : HashTable T) (v : T)
    (hB : 1 ≤ t.table.length)
    (hv : v ∈ t.table.getD (hash v % t.table.length) []) :
    List.Perm (v :: (HashTable.pull hash t v).table.flatten) t.table.flatten :=
  flatten_set_erase_perm t.table _ _ v (getElem?_key hash t v hB) hv

theorem grown_flatten_perm (hash : T → Nat) (t : HashTable T) (hc : 1 ≤ t.capacity) :
    List.Perm (HashTable.grown hash t).table.flatten t.table.flatten :=
  rebucket_flatten_perm hash _ (by omega) _

theorem inv_grown (hash : T → Nat) (t : HashTable T) (hc : 1 ≤ t.capacity)
    (hu : t.used = t.table.flatten.length) :
    HashTable.Inv hash (HashTable.grown hash t) where
  buckets_pos := by rw [grown_length]; omega
  capacity_pos := by simp only [HashTable.grown]; omega
  placed := wellPlaced_grown hash t
  used_eq := by
    rw [(grown_flatten_perm hash t hc).length_eq]
    exact hu

theorem inv_push (hash : T → Nat) (t : HashTable T) (v : T) (h : HashTable.Inv hash t) :
    HashTable.Inv hash (HashTable.push hash t v) where
  buckets_pos := by simpa [HashTable.push] using h.buckets_pos
  capacity_pos := h.capacity_pos
  placed := wellPlaced_push hash t v h.buckets_pos h.placed
  used_eq := by
    rw [(push_flatten_perm hash t v h.buckets_pos).length_eq]
    simp [HashTable.push, h.used_eq]

theorem inv_pull (hash : T → Nat) (t : HashTable T) (v : T) (h : HashTable.Inv hash t)
    (hv : v ∈ t.table.getD (hash v % t.table.length) []) :
    HashTable.Inv hash (HashTable.pull hash t v) where
  buckets_pos := by simpa [HashTable.pull] using h.buckets_pos
  capacity_pos := h.capacity_pos
  placed := wellPlaced_pull hash t v h.buckets_pos h.placed
  used_eq := by
    have hp := (pull_flatten_perm hash t v h.buckets_pos hv).length_eq
    simp only [List.length_cons] at hp
    simp only [HashTable.pull, h.used_eq] at hp ⊢
    omega

end Invariant

section Reach

variable {T : Type} [DecidableEq T]

theorem inv_create (hash : T → Nat) (lf : Int) (c : Nat) (t0 : HashTable T)
    (h0 : HashTable.create lf c = some t0) (hB : 1 ≤ t0.table.length) :
    HashTable.Inv hash t0 ∧ t0.table.flatten = [] := by
  unfold HashTable.create at h0
  simp only at h0
  split at h0
  · cases h0
  · split at h0
    · cases h0
    · cases h0
      simp only [List.length_replicate] at hB
      refine ⟨⟨by simpa using hB, ?_, ?_, by simp [flatten_replicate_nil]⟩,
        flatten_replicate_nil _⟩
      · rcases Nat.eq_zero_or_pos (c % 256) with hz | hz
        · simp [hz] at hB
        · exact hz
      · intro i chain hi v hv
        have := (List.getElem?_eq_some_iff.1 hi)
        obtain ⟨hlt, hget⟩ := this
        simp only [List.getElem_replicate] at hget
        subst hget
        simp at hv

theorem mem_bucket_of_mem_flatten (hash : T → Nat) (t : HashTable T) (v : T)
    (hw : HashTable.WellPlaced hash t) (hv : v ∈ t.table.flatten) :
    v ∈ t.table.getD (hash v % t.table.length) [] := by
  obtain ⟨l, hl, hvl⟩ := List.mem_flatten.1 hv
  obtain ⟨i, hsome⟩ := List.getElem?_of_mem hl
  have hkey := hw i l hsome v hvl
  rw [hkey, List.getD_eq_getElem?_getD, hsome]
  exact hvl

theorem mem_flatten_of_mem_bucket (hash : T → Nat) (t : HashTable T) (v w : T)
    (hB : 1 ≤ t.table.length)
    (hv : w ∈ t.table.getD (hash v % t.table.length) []) : w ∈ t.table.flatten := by
  have h := getElem?_key hash t v hB
  exact List.mem_flatten.2 ⟨_, List.getElem?_mem h, hv⟩

theorem count_flatten_of_only (L : List (List T)) (v : T) :
    ∀ (i : Nat) (c : List T), L[i]? = some c →
      (∀ (j : Nat) (d : List T), L[j]? = some d → v ∈ d → j = i) →
      List.count v L.flatten = List.count v c := by
  induction L with
  | nil => intro i c h; simp at h
  | cons c0 L ih =>
    intro i c h honly
    cases i with
    | zero =>
      simp at h
      subst h
      have hz : List.count v L.flatten = 0 := by
        rw [List.count_eq_zero]
        intro hmem
        obtain ⟨l, hl, hvl⟩ := List.mem_flatten.1 hmem
        obtain ⟨j, hj⟩ := List.getElem?_of_mem hl
        have := honly (j + 1) l (by simpa using hj) hvl
        omega
      simp [hz]
    | succ i =>
      simp at h
      have hz : List.count v c0 = 0 := by
        rw [List.count_eq_zero]
        intro hmem
        have := honly 0 c0 (by simp) hmem
        omega
      have := ih i c h (fun j d hj hd => by
        have := honly (j + 1) d (by simpa using hj) hd
        omega)
      simp [hz, this]

theorem count_bucket_eq (hash : T → Nat) (t : HashTable T) (v : T)
    (hB : 1 ≤ t.table.length) (hw : HashTable.WellPlaced hash t) :
    List.count v (t.table.getD (hash v % t.table.length) []) = List.count v t.table.flatten :=
  (count_flatten_of_only t.table v _ _ (getElem?_key hash t v hB)
    (fun j d hj hd => (hw j d hj v hd).symm)).symm

theorem contains_eq_count (hash : T → Nat) (t : HashTable T) (v : T)
    (h : HashTable.Inv hash t) :
    HashTable.contains hash t v = some (decide (0 < List.count v t.table.flatten)) := by
  rw [contains_eq hash t v h.buckets_pos, ← count_bucket_eq hash t v h.buckets_pos h.placed]
  simp [List.count_pos_iff]

theorem insert_spec (hash : T → Nat) (t : HashTable T) (v : T) (h : HashTable.Inv hash t) :
    ∃ t1, HashTable.insert hash t v = some t1 ∧ HashTable.Inv hash t1 ∧
      List.Perm t1.table.flatten (v :: t.table.flatten) ∧ t1.used = t.used + 1 := by
  by_cases he : t.used = t.capacity
  · have hg := inv_grown hash t h.capacity_pos h.used_eq
    refine ⟨_, insert_of_eq hash t v h.capacity_pos he, inv_push hash _ v hg, ?_, rfl⟩
    exact (push_flatten_perm hash _ v hg.buckets_pos).trans
      (List.Perm.cons v (grown_flatten_perm hash t h.capacity_pos))
  · exact ⟨_, insert_of_ne hash t v h.buckets_pos he, inv_push hash t v h,
      push_flatten_perm hash t v h.buckets_pos, rfl⟩

theorem remove_spec (hash : T → Nat) (t : HashTable T) (v : T) (h : HashTable.Inv hash t) :
    ∃ t1, HashTable.remove hash t v = some t1 ∧ HashTable.Inv hash t1 ∧
      List.Perm t1.table.flatten (t.table.flatten.erase v) ∧
      t1.used = (if v ∈ t.table.flatten then t.used - 1 else t.used) := by
  by_cases hv : v ∈ t.table.getD (hash v % t.table.length) []
  · have hf := mem_flatten_of_mem_bucket hash t v v h.buckets_pos hv
    refine ⟨_, remove_of_mem hash t v h.buckets_pos hv, inv_pull hash t v h hv, ?_, ?_⟩
    · have := (pull_flatten_perm hash t v h.buckets_pos hv).erase v
      simpa using this
    · simp [HashTable.pull, hf]
  · have hf : v ∉ t.table.flatten := fun hm =>
      hv (mem_bucket_of_mem_flatten hash t v h.placed hm)
    refine ⟨_, remove_of_not_mem hash t v h.buckets_pos hv, h, ?_, ?_⟩
    · rw [List.erase_of_not_mem hf]
    · simp [hf]

theorem step_spec (hash : T → Nat) (t : HashTable T) (op : Op T) (h : HashTable.Inv hash t) :
    ∃ t1, HashTable.step hash t op = some t1 ∧ HashTable.Inv hash t1 := by
  cases op with
  | insert v =>
    obtain ⟨t1, h1, h2, _⟩ := insert_spec hash t v h
    exact ⟨t1, h1, h2⟩
  | remove v =>
    obtain ⟨t1, h1, h2, _⟩ := remove_spec hash t v h
    exact ⟨t1, h1, h2⟩

theorem run_cons (hash : T → Nat) (t : HashTable T) (op : Op T) (ops : List (Op T)) :
    HashTable.run hash t (op :: ops)
      = (HashTable.step hash t op).bind fun t1 => HashTable.run hash t1 ops := by
  simp [HashTable.run]

theorem run_spec (hash : T → Nat) (ops : List (Op T)) :
    ∀ t : HashTable T, HashTable.Inv hash t →
      ∃ t1, HashTable.run hash t ops = some t1 ∧ HashTable.Inv hash t1 := by
  induction ops with
  | nil => intro t h; exact ⟨t, rfl, h⟩
  | cons op ops ih =>
    intro t h
    obtain ⟨t1, h1, h2⟩ := step_spec hash t op h
    obtain ⟨t2, h3, h4⟩ := ih t1 h2
    exact ⟨t2, by rw [run_cons, h1]; exact h3, h4⟩

end Reach

section Histories

variable {T : Type} [DecidableEq T]

theorem run_inserts_spec (hash : T → Nat) (vs : List T) :
    ∀ t : HashTable T, HashTable.Inv hash t →
      ∃ t1, HashTable.run hash t (vs.map Op.insert) = some t1 ∧ HashTable.Inv hash t1 ∧
        ∀ w, w ∈ vs ∨ w ∈ t.table.flatten → w ∈ t1.table.flatten := by
  induction vs with
  | nil => intro t h; exact ⟨t, rfl, h, fun w hw => by simpa using hw⟩
  | cons v vs ih =>
    intro t h
    obtain ⟨t1, h1, h2, h3, _⟩ := insert_spec hash t v h
    obtain ⟨t2, h4, h5, h6⟩ := ih t1 h2
    refine ⟨t2, ?_, h5, ?_⟩
    · rw [List.map_cons, run_cons]
      simp only [HashTable.step, h1, Option.some_bind]
      exact h4
    · intro w hw
      apply h6
      rcases hw with hw | hw
      · rcases List.mem_cons.1 hw with rfl | hw
        · exact Or.inr (h3.mem_iff.2 (List.mem_cons_self _ _))
        · exact Or.inl hw
      · exact Or.inr (h3.mem_iff.2 (List.mem_cons_of_mem _ hw))

theorem drain_spec (hash : T → Nat) (v : T) (fuel : Nat) :
    ∀ t : HashTable T, HashTable.Inv hash t → List.count v t.table.flatten < fuel →
      HashTable.drain hash v fuel t = some (List.count v t.table.flatten) := by
  induction fuel with
  | zero => intro t _ hlt; omega
  | succ fuel ih =>
    intro t h hlt
    rw [HashTable.drain, contains_eq_count hash t v h]
    simp only [Option.some_bind, decide_eq_true_eq]
    by_cases hpos : 0 < List.count v t.table.flatten
    · obtain ⟨t1, h1, h2, h3, _⟩ := remove_spec hash t v h
      have hc : List.count v t1.table.flatten = List.count v t.table.flatten - 1 := by
        rw [h3.count_eq, List.count_erase_self]
      rw [if_pos hpos, h1, Option.some_bind, ih t1 h2 (by omega), hc]
      simp only [Option.map_some', Option.some.injEq]
      omega
    · rw [if_neg hpos]
      congr 1
      omega

theorem run_count_spec (hash : T → Nat) (v : T) (ops : List (Op T)) :
    ∀ t : HashTable T, HashTable.Inv hash t →
      ∃ t1 j, HashTable.run hash t ops = some t1 ∧ HashTable.Inv hash t1 ∧
        HashTable.removals hash v t ops = some j ∧
        List.count v t1.table.flatten + j
          = List.count v t.table.flatten + ops.count (Op.insert v) := by
  induction ops with
  | nil => intro t h; exact ⟨t, 0, rfl, h, rfl, by simp⟩
  | cons op ops ih =>
    intro t h
    cases op with
    | insert w =>
      obtain ⟨t1, h1, h2, h3, _⟩ := insert_spec hash t w h
      obtain ⟨t2, j, h4, h5, h6, h7⟩ := ih t1 h2
      refine ⟨t2, j, ?_, h5, ?_, ?_⟩
      · rw [run_cons]; simp only [HashTable.step, h1, Option.some_bind]; exact h4
      · simp [HashTable.removals, HashTable.step, h1, h6]
      · rw [h3.count_eq] at h7
        by_cases hwv : w = v
        · subst hwv
          simp only [List.count_cons_self] at h7 ⊢
          omega
        · have hne : (Op.insert w : Op T) ≠ Op.insert v := fun he => hwv (Op.insert.inj he)
          rw [List.count_cons_of_ne (Ne.symm hwv)] at h7
          rw [List.count_cons_of_ne hne.symm]
          exact h7
    | remove w =>
      obtain ⟨t1, h1, h2, h3, _⟩ := remove_spec hash t w h
      obtain ⟨t2, j, h4, h5, h6, h7⟩ := ih t1 h2
      have hne : (Op.remove w : Op T) ≠ Op.insert v := fun he => by cases he
      rw [h3.count_eq] at h7
      by_cases hwv : w = v
      · subst hwv
        by_cases hpos : 0 < List.count w t.table.flatten
        · refine ⟨t2, j + 1, ?_, h5, ?_, ?_⟩
          · rw [run_cons]; simp only [HashTable.step, h1, Option.some_bind]; exact h4
          · simp [HashTable.removals, HashTable.step, h1, h6,
              contains_eq_count hash t w h, hpos]
          · rw [List.count_erase_self] at h7
            rw [List.count_cons_of_ne hne.symm]
            omega
        · refine ⟨t2, j, ?_, h5, ?_, ?_⟩
          · rw [run_cons]; simp only [HashTable.step, h1, Option.some_bind]; exact h4
          · simp [HashTable.removals, HashTable.step, h1, h6,
              contains_eq_count hash t w h, hpos]
          · rw [List.count_erase_self] at h7
            rw [List.count_cons_of_ne hne.symm]
            omega
      · refine ⟨t2, j, ?_, h5, ?_, ?_⟩
        · rw [run_cons]; simp only [HashTable.step, h1, Option.some_bind]; exact h4
        · have hne2 : (Op.remove w : Op T) ≠ Op.remove v := fun he => hwv (Op.remove.inj he)
          simp [HashTable.removals, HashTable.step, h1, h6, hne2]
        · rw [List.count_erase_of_ne (Ne.symm hwv)] at h7
          rw [List.count_cons_of_ne hne.symm]
          exact h7

end Histories

section Dump

variable {T : Type} [DecidableEq T]

end Dump

section Shape

variable {T : Type} [DecidableEq T]

theorem insert_some_of_ne (hash : T → Nat) (t t1 : HashTable T) (v : T)
    (hne : t.used ≠ t.capacity) (h : HashTable.insert hash t v = some t1) :
    t1.capacity = t.capacity ∧ t1.table.length = t.table.length ∧ t1.used = t.used + 1 := by
  simp only [HashTable.insert, hne, if_false, Option.some_bind] at h
  cases hk : HashTable.get_chain hash t v with
  | none => rw [hk] at h; simp at h
  | some key =>
    rw [hk] at h
    simp only [Option.some_bind, Option.map_eq_some'] at h
    obtain ⟨chain, _, h2⟩ := h
    subst h2
    simp

theorem insert_some_buckets (hash : T → Nat) (t t1 : HashTable T) (v : T)
    (h : HashTable.insert hash t v = some t1) : 1 ≤ t1.table.length := by
  simp only [HashTable.insert] at h
  cases hg : (if t.used = t.capacity then HashTable.resize hash t else some t) with
  | none => rw [hg] at h; simp at h
  | some t2 =>
    rw [hg] at h
    simp only [Option.some_bind] at h
    cases hk : HashTable.get_chain hash t2 v with
    | none => rw [hk] at h; simp at h
    | some key =>
      rw [hk] at h
      simp only [Option.some_bind, Option.map_eq_some'] at h
      obtain ⟨chain, _, h2⟩ := h
      subst h2
      have hlen : t2.table.length ≠ 0 := by
        intro h0
        simp [HashTable.get_chain, h0] at hk
      simp only [List.length_set]
      omega

theorem insert_none_of_no_buckets (hash : T → Nat) (t t2 : HashTable T) (v : T)
    (hg : (if t.used = t.capacity then HashTable.resize hash t else some t) = some t2)
    (h0 : t2.table.length = 0) : HashTable.insert hash t v = none := by
  simp only [HashTable.insert, hg, Option.some_bind]
  simp [HashTable.get_chain, h0]

theorem step_shape (hash : T → Nat) (t : HashTable T) (op : Op T)
    (h : HashTable.Inv hash t) :
    ∃ t1, HashTable.step hash t op = some t1 ∧ HashTable.Inv hash t1 ∧
      ((t1.table.length = t.table.length ∧ t1.capacity = t.capacity ∧
          (t1.used ≤ t.used ∨ (t.used ≠ t.capacity ∧ t1.used = t.used + 1))) ∨
        (t.used = t.capacity ∧ t1.table.length = 3 * t.capacity ∧
          t1.capacity = 3 * t.capacity ∧ t1.used = t.used + 1)) := by
  cases op with
  | insert v =>
    by_cases he : t.used = t.capacity
    · have hg := inv_grown hash t h.capacity_pos h.used_eq
      refine ⟨_, insert_of_eq hash t v h.capacity_pos he, inv_push hash _ v hg, Or.inr ?_⟩
      refine ⟨he, ?_, ?_, rfl⟩
      · simp only [HashTable.push, List.length_set]
        rw [grown_length, Nat.mul_comm]
      · simp only [HashTable.push, HashTable.grown]
        omega
    · refine ⟨_, insert_of_ne hash t v h.buckets_pos he, inv_push hash t v h, Or.inl ?_⟩
      exact ⟨by simp [HashTable.push], rfl, Or.inr ⟨he, rfl⟩⟩
  | remove v =>
    by_cases hv : v ∈ t.table.getD (hash v % t.table.length) []
    · refine ⟨_, remove_of_mem hash t v h.buckets_pos hv, inv_pull hash t v h hv, Or.inl ?_⟩
      exact ⟨by simp [HashTable.pull], rfl, Or.inl (by simp only [HashTable.pull]; omega)⟩
    · exact ⟨_, remove_of_not_mem hash t v h.buckets_pos hv, h,
        Or.inl ⟨rfl, rfl, Or.inl (Nat.le_refl _)⟩⟩

theorem run_bounded (hash : T → Nat) (ops : List (Op T)) :
    ∀ t : HashTable T, HashTable.Inv hash t → t.used ≤ t.capacity →
      ∃ t1, HashTable.run hash t ops = some t1 ∧ HashTable.Inv hash t1 ∧
        t1.used ≤ t1.capacity := by
  induction ops with
  | nil => intro t h hu; exact ⟨t, rfl, h, hu⟩
  | cons op ops ih =>
    intro t h hu
    obtain ⟨t1, h1, h2, h3⟩ := step_shape hash t op h
    have hu1 : t1.used ≤ t1.capacity := by
      have := h.capacity_pos
      rcases h3 with ⟨_, hc, hx⟩ | ⟨he, _, hc, hx⟩
      · rcases hx with hx | ⟨hne, hx⟩ <;> omega
      · omega
    obtain ⟨t2, h4, h5, h6⟩ := ih t1 h2 hu1
    exact ⟨t2, by rw [run_cons, h1]; exact h4, h5, h6⟩

theorem run_buckets_track (hash : T → Nat) (b0 c0 : Nat) (ops : List (Op T)) :
    ∀ t : HashTable T, HashTable.Inv hash t →
      ((t.table.length = b0 ∧ t.capacity = c0) ∨ t.table.length = t.capacity) →
      ∃ t1, HashTable.run hash t ops = some t1 ∧
        ((t1.table.length = b0 ∧ t1.capacity = c0) ∨ t1.table.length = t1.capacity) := by
  induction ops with
  | nil => intro t _ hp; exact ⟨t, rfl, hp⟩
  | cons op ops ih =>
    intro t h hp
    obtain ⟨t1, h1, h2, h3⟩ := step_shape hash t op h
    have hp1 : (t1.table.length = b0 ∧ t1.capacity = c0) ∨
        t1.table.length = t1.capacity := by
      rcases h3 with ⟨hl, hc, _⟩ | ⟨_, hl, hc, _⟩
      · rcases hp with ⟨hb, hcc⟩ | hp
        · exact Or.inl ⟨by omega, by omega⟩
        · exact Or.inr (by omega)
      · exact Or.inr (by omega)
    obtain ⟨t2, h4, h5⟩ := ih t1 h2 hp1
    exact ⟨t2, by rw [run_cons, h1]; exact h4, h5⟩

theorem run_inserts_capacity (hash : T → Nat) (c : Nat) (hc : 1 ≤ c) (vs : List T) :
    ∀ (t : HashTable T) (k : Nat), HashTable.Inv hash t → t.capacity = c * 3 ^ k →
      t.used ≤ c * 3 ^ k → (∀ k', t.used ≤ c * 3 ^ k' → k ≤ k') →
      ∃ t1 g, HashTable.run hash t (vs.map Op.insert) = some t1 ∧
        HashTable.growths hash t (vs.map Op.insert) = some g ∧
        t1.capacity = c * 3 ^ (k + g) ∧ t1.used = t.used + vs.length ∧
        t1.used ≤ c * 3 ^ (k + g) ∧ (∀ k', t1.used ≤ c * 3 ^ k' → k + g ≤ k') := by
  induction vs with
  | nil =>
    intro t k _ hcap hu hleast
    exact ⟨t, 0, rfl, rfl, hcap, rfl, hu, hleast⟩
  | cons v vs ih =>
    intro t k h hcap hu hleast
    have hpos : 0 < c * 3 ^ k := Nat.mul_pos hc (Nat.pow_pos (by decide))
    by_cases he : t.used = t.capacity
    · have hg := inv_grown hash t h.capacity_pos h.used_eq
      have hins := insert_of_eq hash t v h.capacity_pos he
      have hi1 := inv_push hash _ v hg
      have hcap1 : (HashTable.push hash (HashTable.grown hash t) v).capacity
          = c * 3 ^ (k + 1) := by
        simp only [HashTable.push, HashTable.grown, hcap, pow_succ]
        ring
      have hused1 : (HashTable.push hash (HashTable.grown hash t) v).used = t.used + 1 := rfl
      have hpow : c * 3 ^ (k + 1) = 3 * (c * 3 ^ k) := by rw [pow_succ]; ring
      obtain ⟨t2, g, r1, r2, r3, r4, r5, r6⟩ := ih _ (k + 1) hi1 hcap1
        (by rw [hused1, hpow]; omega)
        (fun k' hk' => by
          by_contra hlt
          have hle : k' ≤ k := by omega
          have := Nat.mul_le_mul_left c (Nat.pow_le_pow_right (by decide : 0 < 3) hle)
          rw [hused1] at hk'
          omega)
      refine ⟨t2, g + 1, ?_, ?_, ?_, ?_, ?_, ?_⟩
      · rw [List.map_cons, run_cons]
        simp only [HashTable.step, hins, Option.some_bind]
        exact r1
      · rw [List.map_cons]
        simp only [HashTable.growths, HashTable.step, hins, Option.some_bind, r2,
          Option.map_some', he, if_true]
      · rw [r3]; congr 2; omega
      · rw [r4, hused1, List.length_cons]; omega
      · rw [show k + (g + 1) = k + 1 + g by omega]; exact r5
      · intro k' hk'
        have := r6 k' hk'
        omega
    · have hins := insert_of_ne hash t v h.buckets_pos he
      have hi1 := inv_push hash t v h
      have hused1 : (HashTable.push hash t v).used = t.used + 1 := rfl
      have hcap1 : (HashTable.push hash t v).capacity = c * 3 ^ k := hcap
      obtain ⟨t2, g, r1, r2, r3, r4, r5, r6⟩ := ih _ k hi1 hcap1
        (by rw [hused1]; omega)
        (fun k' hk' => hleast k' (by rw [hused1] at hk'; omega))
      refine ⟨t2, g, ?_, ?_, r3, ?_, r5, r6⟩
      · rw [List.map_cons, run_cons]
        simp only [HashTable.step, hins, Option.some_bind]
        exact r1
      · rw [List.map_cons]
        simp only [HashTable.growths, HashTable.step, hins, Option.some_bind, r2,
          Option.map_some', he, if_false]
      · rw [r4, hused1, List.length_cons]; omega

end Shape

section Text

variable {T : Type} [DecidableEq T]

theorem foldl_append_string (xs : List String) :
    ∀ acc : String, xs.foldl (fun r s => r ++ s) acc = acc ++ String.join xs := by
  induction xs with
  | nil => intro acc; simp [String.join]
  | cons x xs ih =>
    intro acc
    rw [List.foldl_cons, ih (acc ++ x)]
    simp only [String.join, List.foldl_cons, String.empty_append]
    rw [ih x, String.append_assoc]
    rfl

theorem string_join_cons (x : String) (xs : List String) :
    String.join (x :: xs) = x ++ String.join xs := by
  simp only [String.join, List.foldl_cons, String.empty_append]
  exact foldl_append_string xs x

theorem dump_chain_eq (render : T → String) (chain : List T) :
    ∀ out : String, dump_chain render out chain
      = out ++ String.join (chain.map fun value => render value ++ "\t") := by
  induction chain with
  | nil => intro out; simp [dump_chain, String.join]
  | cons v chain ih =>
    intro out
    have h := ih (out ++ render v ++ "\t")
    simp only [dump_chain, List.foldl_cons, List.map_cons] at h ⊢
    rw [h, string_join_cons]
    simp only [String.append_assoc]

theorem dump_loop_eq (render : T → String) (L : List (List T)) :
    ∀ (out : String) (counter : Nat), dump_loop render out counter L
      = out ++ String.join ((dump_rows counter L).map fun row =>
          toString row.1 ++ ":\t"
            ++ String.join (row.2.map fun value => render value ++ "\t") ++ "\n") := by
  induction L with
  | nil => intro out counter; simp [dump_loop, dump_rows, String.join]
  | cons chain rest ih =>
    intro out counter
    simp only [dump_loop, dump_rows, List.map_cons]
    rw [ih, dump_chain_eq, string_join_cons]
    simp only [String.append_assoc]

theorem dump_eq_dump_format (render : T → String) (t : HashTable T) :
    HashTable.dump render "" t = HashTable.dump_format render t := by
  simp only [HashTable.dump, HashTable.dump_format]
  rw [dump_loop_eq]
  simp only [String.empty_append, String.append_assoc]

end Text

section StringHash

theorem my_hash_loop_total (value : List Byte) :
    ∀ (fuel i num num2 : Nat), value.length ≤ i + fuel →
      ∃ r, hasher_string.my_hash_loop value fuel i num num2 = some r := by
  intro fuel
  induction fuel with
  | zero =>
    intro i num num2 hlen
    have h0 : ¬ i < value.length := by omega
    exact ⟨_, by rw [hasher_string.my_hash_loop, if_neg h0]⟩
  | succ fuel ih =>
    intro i num num2 hlen
    rw [hasher_string.my_hash_loop]
    by_cases h0 : i < value.length
    · rw [if_pos h0, List.getElem?_eq_getElem h0, Option.some_bind]
      by_cases h1 : i + 1 < value.length
      · rw [if_pos h1, List.getElem?_eq_getElem h1, Option.map_some', Option.some_bind]
        by_cases h2 : i + 2 < value.length
        · rw [if_pos h2, List.getElem?_eq_getElem h2, Option.some_bind]
          by_cases h3 : i + 3 < value.length
          · rw [if_pos h3, List.getElem?_eq_getElem h3, Option.map_some', Option.map_some',
              Option.some_bind]
            exact ih _ _ _ (by omega)
          · rw [if_neg h3, Option.map_some', Option.some_bind]
            exact ih _ _ _ (by omega)
        · rw [if_neg h2, Option.some_bind]
          exact ih _ _ _ (by omega)
      · rw [if_neg h1, Option.some_bind]
        have h2 : ¬ i + 2 < value.length := by omega
        rw [if_neg h2, Option.some_bind]
        exact ih _ _ _ (by omega)
    · exact ⟨_, by rw [if_neg h0]⟩

end StringHash

section Safety

variable {T : Type} [DecidableEq T]

theorem create_fields (lf : Int) (c : Nat) (t0 : HashTable T)
    (h0 : HashTable.create lf c = some t0) :
    t0.used = 0 ∧ t0.capacity = c % 256 ∧
      t0.table = List.replicate t0.table.length [] ∧
      (t0.table.length : Int) = (((c % 256 : Nat) : Int) * lf).tdiv 100 := by
  unfold HashTable.create at h0
  simp only at h0
  split at h0
  · cases h0
  · split at h0
    · cases h0
    · next hfit hneg =>
      cases h0
      have hq0 : 0 ≤ (((c % 256 : Nat) : Int) * lf).tdiv 100 := not_lt.1 hneg
      refine ⟨rfl, rfl, by simp, ?_⟩
      simp only [List.length_replicate]
      exact Int.toNat_of_nonneg hq0

theorem create_buckets_pos (lf : Int) (c : Nat) (t0 : HashTable T) (hc : c < 256)
    (h100 : 100 ≤ (c : Int) * lf) (h0 : HashTable.create lf c = some t0) :
    1 ≤ t0.table.length := by
  obtain ⟨_, _, _, hlen⟩ := create_fields lf c t0 h0
  rw [Nat.mod_eq_of_lt hc, Int.tdiv_eq_ediv (by omega) (by decide)] at hlen
  omega

theorem insert_none_of_create_empty (hash : T → Nat) (lf : Int) (c : Nat)
    (t0 : HashTable T) (h0 : HashTable.create lf c = some t0)
    (hB : t0.table.length = 0) (v : T) : HashTable.insert hash t0 v = none := by
  obtain ⟨hu, _, htab, _⟩ := create_fields lf c t0 h0
  rw [hB] at htab
  by_cases he : t0.used = t0.capacity
  · have hcap : t0.capacity = 0 := by omega
    have hres : HashTable.resize hash t0
        = some { table := [], used := t0.used, capacity := 0 } := by
      simp [HashTable.resize, htab, hcap]
    exact insert_none_of_no_buckets hash t0
      { table := [], used := t0.used, capacity := 0 } v (by rw [if_pos he, hres]) rfl
  · exact insert_none_of_no_buckets hash t0 t0 v (by rw [if_neg he]) hB

theorem call_spec (hash : T → Nat) (t : HashTable T) (call : Call T)
    (h : HashTable.Inv hash t) :
    ∃ t1, HashTable.call hash t call = some t1 ∧ HashTable.Inv hash t1 := by
  cases call with
  | insert v =>
    obtain ⟨t1, h1, h2, _⟩ := insert_spec hash t v h
    exact ⟨t1, h1, h2⟩
  | contains v =>
    exact ⟨t, by simp [HashTable.call, contains_eq hash t v h.buckets_pos], h⟩
  | remove v =>
    obtain ⟨t1, h1, h2, _⟩ := remove_spec hash t v h
    exact ⟨t1, h1, h2⟩

theorem calls_spec (hash : T → Nat) (cs : List (Call T)) :
    ∀ t : HashTable T, HashTable.Inv hash t →
      ∃ t1, HashTable.calls hash t cs = some t1 ∧ HashTable.Inv hash t1 := by
  induction cs with
  | nil => intro t h; exact ⟨t, rfl, h⟩
  | cons call cs ih =>
    intro t h
    obtain ⟨t1, h1, h2⟩ := call_spec hash t call h
    obtain ⟨t2, h3, h4⟩ := ih t1 h2
    refine ⟨t2, ?_, h4⟩
    simp only [HashTable.calls, List.foldlM_cons, h1, Option.some_bind,
      Option.bind_eq_bind]
    exact h3

end Safety

section Claims

variable {T : Type} [DecidableEq T]

/-- C1: on a table constructed with at least one bucket, the calls insert(v_1), ...,
insert(v_n) all return (growths included), and in the table they leave
contains(v_i) answers true for every i. -/
theorem inserted_values_are_contained (hash : T → Nat) (lf : Int) (c : Nat)
    (t0 : HashTable T) (h0 : HashTable.create lf c = some t0) (hB : 1 ≤ t0.table.length)
    (vs : List T) :
    ∃ t, HashTable.run hash t0 (vs.map Op.insert) = some t ∧
      ∀ v ∈ vs, HashTable.contains hash t v = some true := by
  obtain ⟨t, h1, h2, h3⟩ := run_inserts_spec hash vs t0 (inv_create hash lf c t0 h0 hB).1
  refine ⟨t, h1, fun v hv => ?_⟩
  rw [contains_eq_count hash t v h2]
  have : 0 < List.count v t.table.flatten := List.count_pos_iff.2 (h3 v (Or.inl hv))
  simp [this]

theorem inserted_values_are_contained_witness :
    HashTable.create 75 5 = some hash_table_uint8 ∧ 1 ≤ hash_table_uint8.table.length ∧
    ∃ t, HashTable.run hasher_uint8.my_hash hash_table_uint8
        (([0, 1, 2, 3, 4, 18, 3] : List Byte).map Op.insert) = some t ∧
      ∀ v ∈ ([0, 1, 2, 3, 4, 18, 3] : List Byte),
        HashTable.contains hasher_uint8.my_hash t v = some true :=
  ⟨by decide, by decide,
    inserted_values_are_contained hasher_uint8.my_hash 75 5 hash_table_uint8
      (by decide) (by decide) [0, 1, 2, 3, 4, 18, 3]⟩

/-- C2: in the state reached from a freshly constructed table (at least one bucket)
by any inserts and removes, where v was inserted k times and j of the remove(v)
calls found an entry, the loop "if contains(v) then remove(v)" sees contains(v)
answer true exactly k - j times and then false.  In particular, when v is absent,
two inserts of v leave two entries: contains(v) is true, still true after one
remove(v), and false after the second. -/
theorem multiset_behaviour (hash : T → Nat) (lf : Int) (c : Nat)
    (t0 : HashTable T) (h0 : HashTable.create lf c = some t0) (hB : 1 ≤ t0.table.length)
    (ops : List (Op T)) (v : T) :
    ∃ t j, HashTable.run hash t0 ops = some t ∧
      HashTable.removals hash v t0 ops = some j ∧
      j ≤ ops.count (Op.insert v) ∧
      (∀ fuel, ops.count (Op.insert v) - j < fuel →
        HashTable.drain hash v fuel t = some (ops.count (Op.insert v) - j)) ∧
      (HashTable.contains hash t v = some false →
        ∃ t1 t2 t3 t4,
          HashTable.insert hash t v = some t1 ∧ HashTable.insert hash t1 v = some t2 ∧
          HashTable.contains hash t2 v = some true ∧
          HashTable.remove hash t2 v = some t3 ∧
          HashTable.contains hash t3 v = some true ∧
          HashTable.remove hash t3 v = some t4 ∧
          HashTable.contains hash t4 v = some false) := by
  obtain ⟨hinv, hnil⟩ := inv_create hash lf c t0 h0 hB
  obtain ⟨t, j, h1, h2, h3, h4⟩ := run_count_spec hash v ops t0 hinv
  rw [hnil, List.count_nil, Nat.zero_add] at h4
  refine ⟨t, j, h1, h3, by omega, ?_, ?_⟩
  · intro fuel hf
    have hc : List.count v t.table.flatten = ops.count (Op.insert v) - j := by omega
    rw [← hc] at hf ⊢
    exact drain_spec hash v fuel t h2 hf
  · intro habs
    rw [contains_eq_count hash t v h2] at habs
    have hz : List.count v t.table.flatten = 0 := by
      by_contra hne
      have : 0 < List.count v t.table.flatten := Nat.pos_of_ne_zero hne
      simp [this] at habs
    obtain ⟨t1, a1, i1, p1, _⟩ := insert_spec hash t v h2
    obtain ⟨t2, a2, i2, p2, _⟩ := insert_spec hash t1 v i1
    obtain ⟨t3, a3, i3, p3, _⟩ := remove_spec hash t2 v i2
    obtain ⟨t4, a4, i4, p4, _⟩ := remove_spec hash t3 v i3
    have c1 : List.count v t1.table.flatten = 1 := by
      rw [p1.count_eq, List.count_cons_self, hz]
    have c2 : List.count v t2.table.flatten = 2 := by
      rw [p2.count_eq, List.count_cons_self, c1]
    have c3 : List.count v t3.table.flatten = 1 := by
      rw [p3.count_eq, List.count_erase_self, c2]
    have c4 : List.count v t4.table.flatten = 0 := by
      rw [p4.count_eq, List.count_erase_self, c3]
    refine ⟨t1, t2, t3, t4, a1, a2, ?_, a3, ?_, a4, ?_⟩
    · rw [contains_eq_count hash t2 v i2, c2]; rfl
    · rw [contains_eq_count hash t3 v i3, c3]; rfl
    · rw [contains_eq_count hash t4 v i4, c4]; rfl

theorem multiset_behaviour_witness :
    HashTable.create 75 5 = some hash_table_uint8 ∧ 1 ≤ hash_table_uint8.table.length ∧
    ∃ t j, HashTable.run hasher_uint8.my_hash hash_table_uint8
        [Op.insert 7, Op.remove 7, Op.remove 7, Op.insert 7, Op.insert 22, Op.insert 7,
          Op.insert 7] = some t ∧
      HashTable.removals hasher_uint8.my_hash 7 hash_table_uint8
        [Op.insert 7, Op.remove 7, Op.remove 7, Op.insert 7, Op.insert 22, Op.insert 7,
          Op.insert 7] = some j ∧
      j ≤ List.count (Op.insert 7)
        [Op.insert 7, Op.remove 7, Op.remove 7, Op.insert 7, Op.insert 22, Op.insert 7,
          Op.insert 7] ∧
      (∀ fuel, List.count (Op.insert 7)
          [Op.insert 7, Op.remove 7, Op.remove 7, Op.insert 7, Op.insert 22, Op.insert 7,
            Op.insert 7] - j < fuel →
        HashTable.drain hasher_uint8.my_hash 7 fuel t = some (List.count (Op.insert 7)
          [Op.insert 7, Op.remove 7, Op.remove 7, Op.insert 7, Op.insert 22, Op.insert 7,
            Op.insert 7] - j)) ∧
      (HashTable.contains hasher_uint8.my_hash t 7 = some false →
        ∃ t1 t2 t3 t4,
          HashTable.insert hasher_uint8.my_hash t 7 = some t1 ∧
          HashTable.insert hasher_uint8.my_hash t1 7 = some t2 ∧
          HashTable.contains hasher_uint8.my_hash t2 7 = some true ∧
          HashTable.remove hasher_uint8.my_hash t2 7 = some t3 ∧
          HashTable.contains hasher_uint8.my_hash t3 7 = some true ∧
          HashTable.remove hasher_uint8.my_hash t3 7 = some t4 ∧
          HashTable.contains hasher_uint8.my_hash t4 7 = some false) :=
  ⟨by decide, by decide,
    multiset_behaviour hasher_uint8.my_hash 75 5 hash_table_uint8 (by decide) (by decide)
      [Op.insert 7, Op.remove 7, Op.remove 7, Op.insert 7, Op.insert 22, Op.insert 7,
        Op.insert 7] 7⟩

/-- C3: in a state reached from a freshly constructed table (at least one bucket)
where contains(v) is false, insert(v) followed by remove(v) leaves contains(v)
false and used at the value it had before the insert, whether or not the insert
grew the table. -/
theorem insert_then_remove_restores (hash : T → Nat) (lf : Int) (c : Nat)
    (t0 : HashTable T) (h0 : HashTable.create lf c = some t0) (hB : 1 ≤ t0.table.length)
    (ops : List (Op T)) (t : HashTable T) (hrun : HashTable.run hash t0 ops = some t)
    (v : T) (habs : HashTable.contains hash t v = some false) :
    ∃ t1 t2, HashTable.insert hash t v = some t1 ∧ HashTable.remove hash t1 v = some t2 ∧
      HashTable.contains hash t2 v = some false ∧ t2.used = t.used := by
  obtain ⟨t', h1, h2⟩ := run_spec hash ops t0 (inv_create hash lf c t0 h0 hB).1
  rw [hrun] at h1
  cases h1
  rw [contains_eq_count hash t v h2] at habs
  have hz : List.count v t.table.flatten = 0 := by
    by_contra hne
    have : 0 < List.count v t.table.flatten := Nat.pos_of_ne_zero hne
    simp [this] at habs
  obtain ⟨t1, a1, i1, p1, u1⟩ := insert_spec hash t v h2
  obtain ⟨t2, a2, i2, p2, u2⟩ := remove_spec hash t1 v i1
  have hm : v ∈ t1.table.flatten := p1.mem_iff.2 (List.mem_cons_self _ _)
  refine ⟨t1, t2, a1, a2, ?_, ?_⟩
  · rw [contains_eq_count hash t2 v i2, p2.count_eq, List.count_erase_self, p1.count_eq,
      List.count_cons_self, hz]
    rfl
  · rw [u2, if_pos hm, u1]
    omega

theorem insert_then_remove_restores_witness :
    HashTable.create 75 5 = some hash_table_uint8 ∧ 1 ≤ hash_table_uint8.table.length ∧
    HashTable.run hasher_uint8.my_hash hash_table_uint8
      (([0, 1, 2, 3, 4] : List Byte).map Op.insert) = some hash_table_uint8_filled ∧
    HashTable.contains hasher_uint8.my_hash hash_table_uint8_filled 18 = some false ∧
    ∃ t1 t2, HashTable.insert hasher_uint8.my_hash hash_table_uint8_filled 18 = some t1 ∧
      HashTable.remove hasher_uint8.my_hash t1 18 = some t2 ∧
      HashTable.contains hasher_uint8.my_hash t2 18 = some false ∧
      t2.used = hash_table_uint8_filled.used :=
  ⟨by decide, by decide, by decide, by decide,
    insert_then_remove_restores hasher_uint8.my_hash 75 5 hash_table_uint8 (by decide)
      (by decide) (([0, 1, 2, 3, 4] : List Byte).map Op.insert) hash_table_uint8_filled
      (by decide) 18 (by decide)⟩

/-- C4: on a table with at least one bucket whose chain bucket(v) has no entry
equal to v, remove(v) returns without error and leaves the whole state (every
chain, the bucket count, used, capacity) as it was; so does any number of
repetitions of remove(v). -/
theorem remove_absent_is_identity (hash : T → Nat) (t : HashTable T) (v : T)
    (hB : 1 ≤ t.table.length)
    (habs : ∀ chain, HashTable.bucket hash t v = some chain → v ∉ chain) :
    HashTable.remove hash t v = some t ∧
      ∀ n, HashTable.run hash t (List.replicate n (Op.remove v)) = some t := by
  have hstep : HashTable.remove hash t v = some t :=
    remove_of_not_mem hash t v hB (habs _ (bucket_eq hash t v hB))
  refine ⟨hstep, fun n => ?_⟩
  induction n with
  | zero => rfl
  | succ n ih =>
    rw [List.replicate_succ, run_cons]
    simp only [HashTable.step, hstep, Option.some_bind]
    exact ih

theorem remove_absent_is_identity_witness :
    1 ≤ hash_table_uint8_filled.table.length ∧
    (∀ chain, HashTable.bucket hasher_uint8.my_hash hash_table_uint8_filled 200 = some chain →
      (200 : Byte) ∉ chain) ∧
    HashTable.remove hasher_uint8.my_hash hash_table_uint8_filled 200
      = some hash_table_uint8_filled ∧
    ∀ n, HashTable.run hasher_uint8.my_hash hash_table_uint8_filled
      (List.replicate n (Op.remove 200)) = some hash_table_uint8_filled :=
  ⟨by decide, by intro chain h; cases h; decide,
    remove_absent_is_identity hasher_uint8.my_hash hash_table_uint8_filled 200 (by decide)
      (by intro chain h; cases h; decide)⟩

/-- C5: on a table with B >= 1 buckets and used != capacity, insert(v) returns, puts
v at the end of the chain with index hash(v) mod B, adds exactly 1 to used, and
leaves every other chain, the earlier entries of that chain, the bucket count and
capacity as they were.  The byte table built with capacity 5 and load factor 75
holds, after the inserts of 0, 1, 2, 3, 4, used = 5 and the chains [0,3], [1,4],
[2]. -/
theorem insert_appends_to_bucket (hash : T → Nat) (t : HashTable T) (v : T)
    (hB : 1 ≤ t.table.length) (hne : t.used ≠ t.capacity) :
    (∃ t1 chain, HashTable.insert hash t v = some t1 ∧
      HashTable.bucket hash t v = some chain ∧
      t1.table[hash v % t.table.length]? = some (chain ++ [v]) ∧
      (∀ i, i ≠ hash v % t.table.length → t1.table[i]? = t.table[i]?) ∧
      t1.used = t.used + 1 ∧ t1.table.length = t.table.length ∧
      t1.capacity = t.capacity) ∧
    ((HashTable.create 75 5).bind fun t0 =>
        HashTable.run hasher_uint8.my_hash t0 (([0, 1, 2, 3, 4] : List Byte).map Op.insert))
      = some { table := [[0, 3], [1, 4], [2]], used := 5, capacity := 5 } := by
  refine ⟨⟨_, _, insert_of_ne hash t v hB hne, bucket_eq hash t v hB, ?_, ?_, rfl, ?_, rfl⟩,
    by decide⟩
  · simp only [HashTable.push]
    rw [List.getElem?_set_self (Nat.mod_lt _ hB)]
  · intro i hi
    simp only [HashTable.push]
    rw [List.getElem?_set_ne (Ne.symm hi)]
  · simp [HashTable.push]

theorem insert_appends_to_bucket_witness :
    1 ≤ hash_table_uint8_four.table.length ∧
    hash_table_uint8_four.used ≠ hash_table_uint8_four.capacity ∧
    ((∃ t1 chain, HashTable.insert hasher_uint8.my_hash hash_table_uint8_four 4 = some t1 ∧
      HashTable.bucket hasher_uint8.my_hash hash_table_uint8_four 4 = some chain ∧
      t1.table[hasher_uint8.my_hash 4 % hash_table_uint8_four.table.length]?
        = some (chain ++ [4]) ∧
      (∀ i, i ≠ hasher_uint8.my_hash 4 % hash_table_uint8_four.table.length →
        t1.table[i]? = hash_table_uint8_four.table[i]?) ∧
      t1.used = hash_table_uint8_four.used + 1 ∧
      t1.table.length = hash_table_uint8_four.table.length ∧
      t1.capacity = hash_table_uint8_four.capacity) ∧
    ((HashTable.create 75 5).bind fun t0 =>
        HashTable.run hasher_uint8.my_hash t0 (([0, 1, 2, 3, 4] : List Byte).map Op.insert))
      = some { table := [[0, 3], [1, 4], [2]], used := 5, capacity := 5 }) :=
  ⟨by decide, by decide,
    insert_appends_to_bucket hasher_uint8.my_hash hash_table_uint8_four 4 (by decide)
      (by decide)⟩

/-- C6: on a table with at least one bucket whose chain bucket(v) has an entry equal
to v (so that used is at least 1), remove(v) returns and deletes exactly the
front-most entry of bucket(v) equal to v: the chain front ++ v :: back with v not
in front becomes front ++ back (later copies of v stay, the order of the others is
kept), used drops by exactly 1, and every other chain, the bucket count and
capacity are as before. -/
theorem remove_erases_first_match (hash : T → Nat) (t : HashTable T) (v : T)
    (chain : List T) (hB : 1 ≤ t.table.length)
    (hb : HashTable.bucket hash t v = some chain) (hv : v ∈ chain) (hu : 0 < t.used) :
    ∃ t1 front back, HashTable.remove hash t v = some t1 ∧
      chain = front ++ v :: back ∧ v ∉ front ∧
      t1.table[hash v % t.table.length]? = some (front ++ back) ∧
      (∀ i, i ≠ hash v % t.table.length → t1.table[i]? = t.table[i]?) ∧
      t1.used + 1 = t.used ∧ t1.table.length = t.table.length ∧
      t1.capacity = t.capacity := by
  rw [bucket_eq hash t v hB] at hb
  cases hb
  obtain ⟨front, back, h1, h2, h3⟩ := List.exists_erase_eq hv
  refine ⟨_, front, back, remove_of_mem hash t v hB hv, h2, h1, ?_, ?_, ?_, ?_, rfl⟩
  · simp only [HashTable.pull]
    rw [List.getElem?_set_self (Nat.mod_lt _ hB), h3]
  · intro i hi
    simp only [HashTable.pull]
    rw [List.getElem?_set_ne (Ne.symm hi)]
  · simp only [HashTable.pull]
    omega
  · simp [HashTable.pull]

theorem remove_erases_first_match_witness :
    1 ≤ (HashTable.mk [[0, 3], [1, 4, 7, 4, 1], [2]] 8 15 : HashTable Byte).table.length ∧
    HashTable.bucket hasher_uint8.my_hash
      (HashTable.mk [[0, 3], [1, 4, 7, 4, 1], [2]] 8 15) 4 = some [1, 4, 7, 4, 1] ∧
    (4 : Byte) ∈ ([1, 4, 7, 4, 1] : List Byte) ∧
    0 < (HashTable.mk [[0, 3], [1, 4, 7, 4, 1], [2]] 8 15 : HashTable Byte).used ∧
    ∃ t1 front back,
      HashTable.remove hasher_uint8.my_hash
        (HashTable.mk [[0, 3], [1, 4, 7, 4, 1], [2]] 8 15) 4 = some t1 ∧
      ([1, 4, 7, 4, 1] : List Byte) = front ++ 4 :: back ∧ (4 : Byte) ∉ front ∧
      t1.table[hasher_uint8.my_hash 4
        % (HashTable.mk [[0, 3], [1, 4, 7, 4, 1], [2]] 8 15 : HashTable Byte).table.length]?
        = some (front ++ back) ∧
      (∀ i, i ≠ hasher_uint8.my_hash 4
          % (HashTable.mk [[0, 3], [1, 4, 7, 4, 1], [2]] 8 15 : HashTable Byte).table.length →
        t1.table[i]?
          = (HashTable.mk [[0, 3], [1, 4, 7, 4, 1], [2]] 8 15 : HashTable Byte).table[i]?) ∧
      t1.used + 1 = (HashTable.mk [[0, 3], [1, 4, 7, 4, 1], [2]] 8 15 : HashTable Byte).used ∧
      t1.table.length
        = (HashTable.mk [[0, 3], [1, 4, 7, 4, 1], [2]] 8 15 : HashTable Byte).table.length ∧
      t1.capacity
        = (HashTable.mk [[0, 3], [1, 4, 7, 4, 1], [2]] 8 15 : HashTable Byte).capacity :=
  ⟨by decide, by decide, by decide, by decide,
    remove_erases_first_match hasher_uint8.my_hash
      (HashTable.mk [[0, 3], [1, 4, 7, 4, 1], [2]] 8 15) 4 [1, 4, 7, 4, 1]
      (by decide) (by decide) (by decide) (by decide)⟩

/-- C7: every sequence of inserts and removes on a freshly constructed table with
at least one bucket runs to the end (growths included), and in the state it
reaches used equals the sum of the lengths of all chains; a remove(v) that finds
an entry is made with used >= 1 and lowers used by exactly 1, so used never goes
below zero. -/
theorem used_counts_stored_values (hash : T → Nat) (lf : Int) (c : Nat)
    (t0 : HashTable T) (h0 : HashTable.create lf c = some t0) (hB : 1 ≤ t0.table.length)
    (ops : List (Op T)) :
    ∃ t, HashTable.run hash t0 ops = some t ∧
      t.used = (t.table.map List.length).sum ∧
      ∀ v, HashTable.contains hash t v = some true →
        1 ≤ t.used ∧ ∃ t1, HashTable.remove hash t v = some t1 ∧ t1.used + 1 = t.used := by
  obtain ⟨t, h1, h2⟩ := run_spec hash ops t0 (inv_create hash lf c t0 h0 hB).1
  refine ⟨t, h1, by rw [h2.used_eq, List.length_flatten], fun v hv => ?_⟩
  rw [contains_eq_count hash t v h2] at hv
  have hpos : 0 < List.count v t.table.flatten := by simpa using hv
  have hm : v ∈ t.table.flatten := List.count_pos_iff.1 hpos
  have hlen : 1 ≤ t.used := by
    rw [h2.used_eq]
    exact List.length_pos_of_mem hm
  obtain ⟨t1, a1, _, _, u1⟩ := remove_spec hash t v h2
  refine ⟨hlen, t1, a1, ?_⟩
  rw [u1, if_pos hm]
  omega

theorem used_counts_stored_values_witness :
    HashTable.create 75 5 = some hash_table_uint8 ∧ 1 ≤ hash_table_uint8.table.length ∧
    ∃ t, HashTable.run hasher_uint8.my_hash hash_table_uint8
        [Op.insert 0, Op.insert 1, Op.remove 0, Op.remove 9, Op.insert 2, Op.insert 3,
          Op.insert 4, Op.insert 5, Op.insert 18, Op.remove 3] = some t ∧
      t.used = (t.table.map List.length).sum ∧
      ∀ v, HashTable.contains hasher_uint8.my_hash t v = some true →
        1 ≤ t.used ∧
          ∃ t1, HashTable.remove hasher_uint8.my_hash t v = some t1 ∧ t1.used + 1 = t.used :=
  ⟨by decide, by decide,
    used_counts_stored_values hasher_uint8.my_hash 75 5 hash_table_uint8 (by decide)
      (by decide)
      [Op.insert 0, Op.insert 1, Op.remove 0, Op.remove 9, Op.insert 2, Op.insert 3,
        Op.insert 4, Op.insert 5, Op.insert 18, Op.remove 3]⟩

/-- On the byte table holding 0..4 the sixth insert of byte 18 grows to 15 chains and
stores 18 behind 3 in chain 3, so the bytes 0..4 are not each alone in their
chain for every sixth byte. -/
theorem sixth_byte_shares_a_chain :
    HashTable.insert hasher_uint8.my_hash hash_table_uint8_filled 18
      = some { table := [[0], [1], [2], [3, 18], [4], [], [], [], [], [], [], [], [], [], []],
               used := 6, capacity := 15 } ∧
    ¬ ∀ b : Byte, ∃ t1,
        HashTable.insert hasher_uint8.my_hash hash_table_uint8_filled b = some t1 ∧
        t1.table.length = 15 ∧ t1.capacity = 15 ∧
        (∃ chain, t1.table[b.val % 15]? = some chain ∧ b ∈ chain) ∧
        ∀ i : Byte, i.val < 5 → t1.table[i.val]? = some [i] := by
  refine ⟨by decide, fun h => ?_⟩
  obtain ⟨t1, h1, _, _, _, h2⟩ := h 18
  have h3 : HashTable.insert hasher_uint8.my_hash hash_table_uint8_filled 18
      = some { table := [[0], [1], [2], [3, 18], [4], [], [], [], [], [], [], [], [], [], []],
               used := 6, capacity := 15 } := by decide
  rw [h3] at h1
  cases h1
  exact absurd (h2 3 (by decide)) (by decide)

/-- C9 (amended): on a table with capacity c >= 1 and used = c, whatever its bucket
count, insert(v) grows before storing: it returns, and afterwards used = c + 1,
bucket_count = 3 * c, capacity = 3 * c, and v is the last entry of the chain with
index hash(v) mod (3 * c).  On the byte table of capacity 5 and load factor 75
that holds 0..4, a sixth insert of any byte b leaves bucket_count = 15,
capacity = 15, used = 6, b last in chain b mod 15, and for i in 0..4 chain i is
[i], followed by b when b mod 15 = i. -/
theorem insert_on_full_grows_first (hash : T → Nat) (t : HashTable T) (v : T)
    (hc : 1 ≤ t.capacity) (hfull : t.used = t.capacity) :
    (∃ t1 front, HashTable.insert hash t v = some t1 ∧
      t1.used = t.capacity + 1 ∧ t1.table.length = 3 * t.capacity ∧
      t1.capacity = 3 * t.capacity ∧
      t1.table[hash v % (3 * t.capacity)]? = some (front ++ [v])) ∧
    (∀ b : Byte, ∃ t1 front,
      HashTable.insert hasher_uint8.my_hash hash_table_uint8_filled b = some t1 ∧
      t1.table.length = 15 ∧ t1.capacity = 15 ∧ t1.used = 6 ∧
      t1.table[b.val % 15]? = some (front ++ [b]) ∧
      ∀ i : Byte, i.val < 5 →
        t1.table[i.val]? = some (if b.val % 15 = i.val then [i, b] else [i])) := by
  constructor
  · have hlen : (HashTable.grown hash t).table.length = 3 * t.capacity := by
      rw [grown_length, Nat.mul_comm]
    refine ⟨_, (HashTable.grown hash t).table.getD
      (hash v % (HashTable.grown hash t).table.length) [],
      insert_of_eq hash t v hc hfull, ?_, ?_, ?_, ?_⟩
    · simp [HashTable.push, HashTable.grown, hfull]
    · simp only [HashTable.push, List.length_set]
      exact hlen
    · simp only [HashTable.push, HashTable.grown]
      omega
    · simp only [HashTable.push]
      rw [hlen, List.getElem?_set_self (by rw [hlen]; exact Nat.mod_lt _ (by omega))]
  · intro b
    have hg : HashTable.grown hasher_uint8.my_hash hash_table_uint8_filled
        = { table := [[0], [1], [2], [3], [4], [], [], [], [], [], [], [], [], [], []],
            used := 5, capacity := 15 } := by decide
    have hins := insert_of_eq hasher_uint8.my_hash hash_table_uint8_filled b
      (by decide) (by decide)
    rw [hg] at hins
    have hb : b.val % 15 < 15 := Nat.mod_lt _ (by decide)
    refine ⟨_, ([[0], [1], [2], [3], [4], [], [], [], [], [], [], [], [], [], []] :
      List (List Byte)).getD (b.val % 15) [], hins, by simp [HashTable.push], rfl, rfl, ?_, ?_⟩
    · simp only [HashTable.push, hasher_uint8.my_hash, List.length_cons, List.length_nil]
      rw [List.getElem?_set_self (by simpa using hb)]
    · intro i hi
      simp only [HashTable.push, hasher_uint8.my_hash, List.length_cons, List.length_nil]
      by_cases hbi : b.val % 15 = i.val
      · rw [if_pos hbi, hbi, List.getElem?_set_self (by simp; omega)]
        obtain ⟨i, hi2⟩ := i
        simp only at hi
        interval_cases i <;> rfl
      · rw [if_neg hbi, List.getElem?_set_ne hbi]
        obtain ⟨i, hi2⟩ := i
        simp only at hi
        interval_cases i <;> rfl

theorem insert_on_full_grows_first_witness :
    1 ≤ hash_table_uint8_filled.capacity ∧
    hash_table_uint8_filled.used = hash_table_uint8_filled.capacity ∧
    ((∃ t1 front,
      HashTable.insert hasher_uint8.my_hash hash_table_uint8_filled 200 = some t1 ∧
      t1.used = hash_table_uint8_filled.capacity + 1 ∧
      t1.table.length = 3 * hash_table_uint8_filled.capacity ∧
      t1.capacity = 3 * hash_table_uint8_filled.capacity ∧
      t1.table[hasher_uint8.my_hash 200 % (3 * hash_table_uint8_filled.capacity)]?
        = some (front ++ [200])) ∧
    (∀ b : Byte, ∃ t1 front,
      HashTable.insert hasher_uint8.my_hash hash_table_uint8_filled b = some t1 ∧
      t1.table.length = 15 ∧ t1.capacity = 15 ∧ t1.used = 6 ∧
      t1.table[b.val % 15]? = some (front ++ [b]) ∧
      ∀ i : Byte, i.val < 5 →
        t1.table[i.val]? = some (if b.val % 15 = i.val then [i, b] else [i]))) :=
  ⟨by decide, by decide,
    insert_on_full_grows_first hasher_uint8.my_hash hash_table_uint8_filled 200
      (by decide) (by decide)⟩

/-- C10: on a table with capacity c >= 1, resize returns a table of 3 * c chains in
which, for every k < 3 * c, chain k is exactly the values v of
old chain 0 ++ old chain 1 ++ ... ++ old last chain with hash(v) mod (3 * c) = k,
in that scan order.  Hence every value stored before is found in its new
bucket(v), the stored values are the same multiset, and used is unchanged;
capacity becomes 3 * c. -/
theorem resize_rebuckets_in_scan_order (hash : T → Nat) (t : HashTable T)
    (hc : 1 ≤ t.capacity) :
    ∃ t1, HashTable.resize hash t = some t1 ∧
      t1.table.length = 3 * t.capacity ∧
      (∀ k, k < 3 * t.capacity →
        t1.table[k]?
          = some (t.table.flatten.filter fun v => decide (hash v % (3 * t.capacity) = k))) ∧
      (∀ v ∈ t.table.flatten, ∃ chain, HashTable.bucket hash t1 v = some chain ∧ v ∈ chain) ∧
      List.Perm t1.table.flatten t.table.flatten ∧
      (∀ v, List.count v t1.table.flatten = List.count v t.table.flatten) ∧
      t1.used = t.used ∧ t1.capacity = 3 * t.capacity := by
  have hlen : (HashTable.grown hash t).table.length = 3 * t.capacity := by
    rw [grown_length, Nat.mul_comm]
  have hperm := grown_flatten_perm hash t hc
  refine ⟨_, resize_eq_grown hash t hc, hlen, ?_, ?_, hperm,
    fun v => hperm.count_eq v, rfl, by simp only [HashTable.grown]; omega⟩
  · intro k hk
    simp only [HashTable.grown]
    rw [Nat.mul_comm 3 t.capacity] at hk ⊢
    exact rebucket_getElem? hash _ _ k hk
  · intro v hv
    have hB : 1 ≤ (HashTable.grown hash t).table.length := by rw [hlen]; omega
    refine ⟨_, bucket_eq hash _ v hB, ?_⟩
    exact mem_bucket_of_mem_flatten hash _ v (wellPlaced_grown hash t) (hperm.mem_iff.2 hv)

theorem resize_rebuckets_in_scan_order_witness :
    1 ≤ hash_table_uint8_filled.capacity ∧
    ∃ t1, HashTable.resize hasher_uint8.my_hash hash_table_uint8_filled = some t1 ∧
      t1.table.length = 3 * hash_table_uint8_filled.capacity ∧
      (∀ k, k < 3 * hash_table_uint8_filled.capacity →
        t1.table[k]?
          = some (hash_table_uint8_filled.table.flatten.filter fun v =>
              decide (hasher_uint8.my_hash v % (3 * hash_table_uint8_filled.capacity) = k))) ∧
      (∀ v ∈ hash_table_uint8_filled.table.flatten,
        ∃ chain, HashTable.bucket hasher_uint8.my_hash t1 v = some chain ∧ v ∈ chain) ∧
      List.Perm t1.table.flatten hash_table_uint8_filled.table.flatten ∧
      (∀ v, List.count v t1.table.flatten
        = List.count v hash_table_uint8_filled.table.flatten) ∧
      t1.used = hash_table_uint8_filled.used ∧
      t1.capacity = 3 * hash_table_uint8_filled.capacity :=
  ⟨by decide, resize_rebuckets_in_scan_order hasher_uint8.my_hash hash_table_uint8_filled
    (by decide)⟩

/-- C11: on a freshly constructed table with capacity c >= 1 and at least one
bucket, n inserts with no remove all return and leave capacity = c * 3^k with k
the least natural number such that n <= c * 3^k; exactly k of the inserts were
made with used == capacity (the growths).  An insert made with used != capacity
changes neither capacity nor the bucket count, and an insert made with
used == capacity rescales capacity (and the bucket count) to 3 * capacity. -/
theorem capacity_after_inserts (hash : T → Nat) (lf : Int) (c : Nat)
    (t0 : HashTable T) (h0 : HashTable.create lf c = some t0) (hB : 1 ≤ t0.table.length)
    (vs : List T) :
    (∃ t k, HashTable.run hash t0 (vs.map Op.insert) = some t ∧
      HashTable.growths hash t0 (vs.map Op.insert) = some k ∧
      t.capacity = t0.capacity * 3 ^ k ∧ vs.length ≤ t0.capacity * 3 ^ k ∧
      ∀ k', vs.length ≤ t0.capacity * 3 ^ k' → k ≤ k') ∧
    (∀ (t t1 : HashTable T) (v : T), t.used ≠ t.capacity →
      HashTable.insert hash t v = some t1 →
      t1.capacity = t.capacity ∧ t1.table.length = t.table.length) ∧
    (∀ (t : HashTable T) (v : T), 1 ≤ t.capacity → t.used = t.capacity →
      ∃ t1, HashTable.insert hash t v = some t1 ∧ t1.capacity = 3 * t.capacity ∧
        t1.table.length = 3 * t.capacity) := by
  obtain ⟨hinv, hnil⟩ := inv_create hash lf c t0 h0 hB
  have hu0 : t0.used = 0 := by rw [hinv.used_eq, hnil]; rfl
  refine ⟨?_, ?_, ?_⟩
  · obtain ⟨t, g, r1, r2, r3, r4, r5, r6⟩ := run_inserts_capacity hash t0.capacity
      hinv.capacity_pos vs t0 0 hinv (by simp) (by rw [hu0]; exact Nat.zero_le _)
      (fun k' _ => Nat.zero_le k')
    rw [hu0, Nat.zero_add] at r4
    rw [Nat.zero_add] at r3 r5 r6
    rw [r4] at r5 r6
    exact ⟨t, g, r1, r2, r3, r5, r6⟩
  · intro t t1 v hne hins
    obtain ⟨a, b, _⟩ := insert_some_of_ne hash t t1 v hne hins
    exact ⟨a, b⟩
  · intro t v hc he
    refine ⟨_, insert_of_eq hash t v hc he, ?_, ?_⟩
    · simp only [HashTable.push, HashTable.grown]
      omega
    · simp only [HashTable.push, List.length_set]
      rw [grown_length, Nat.mul_comm]

theorem capacity_after_inserts_witness :
    HashTable.create 75 5 = some hash_table_uint8 ∧ 1 ≤ hash_table_uint8.table.length ∧
    ((∃ t k, HashTable.run hasher_uint8.my_hash hash_table_uint8
        (([0, 1, 2, 3, 4, 18] : List Byte).map Op.insert) = some t ∧
      HashTable.growths hasher_uint8.my_hash hash_table_uint8
        (([0, 1, 2, 3, 4, 18] : List Byte).map Op.insert) = some k ∧
      t.capacity = hash_table_uint8.capacity * 3 ^ k ∧
      ([0, 1, 2, 3, 4, 18] : List Byte).length ≤ hash_table_uint8.capacity * 3 ^ k ∧
      ∀ k', ([0, 1, 2, 3, 4, 18] : List Byte).length ≤ hash_table_uint8.capacity * 3 ^ k' →
        k ≤ k') ∧
    (∀ (t t1 : HashTable Byte) (v : Byte), t.used ≠ t.capacity →
      HashTable.insert hasher_uint8.my_hash t v = some t1 →
      t1.capacity = t.capacity ∧ t1.table.length = t.table.length) ∧
    (∀ (t : HashTable Byte) (v : Byte), 1 ≤ t.capacity → t.used = t.capacity →
      ∃ t1, HashTable.insert hasher_uint8.my_hash t v = some t1 ∧
        t1.capacity = 3 * t.capacity ∧ t1.table.length = 3 * t.capacity)) :=
  ⟨by decide, by decide,
    capacity_after_inserts hasher_uint8.my_hash 75 5 hash_table_uint8 (by decide)
      (by decide) [0, 1, 2, 3, 4, 18]⟩

/-- On the byte table of capacity 5 and load factor 75 that holds 0..4, the growth
leaves 15 chains, which is three times the capacity 5 and not three times the
bucket count 3. -/
theorem first_growth_is_not_threefold :
    (HashTable.resize hasher_uint8.my_hash hash_table_uint8_filled).map
        (fun t => t.table.length) = some 15 ∧
    hash_table_uint8_filled.table.length = 3 ∧
    (HashTable.resize hasher_uint8.my_hash hash_table_uint8_filled).map
        (fun t => t.table.length) ≠ some (3 * hash_table_uint8_filled.table.length) := by
  decide

/-- C12 (amended): every growth replaces the bucket array by one of 3 * capacity
chains: in every state reached from a freshly constructed table with at least one
bucket, resize returns and the bucket count after it is 3 * capacity before it,
for every load factor and every growth.  In such a state either no growth has
happened yet (bucket count and capacity are those of the construction) or the
bucket count equals capacity, and then the growth makes the bucket array three
times as large. -/
theorem growth_sizes_by_capacity (hash : T → Nat) (lf : Int) (c : Nat)
    (t0 : HashTable T) (h0 : HashTable.create lf c = some t0) (hB : 1 ≤ t0.table.length)
    (ops : List (Op T)) :
    ∃ t t1, HashTable.run hash t0 ops = some t ∧ HashTable.resize hash t = some t1 ∧
      t1.table.length = 3 * t.capacity ∧
      ((t.table.length = t0.table.length ∧ t.capacity = t0.capacity) ∨
        t.table.length = t.capacity) ∧
      (t.table.length = t.capacity → t1.table.length = 3 * t.table.length) := by
  obtain ⟨hinv, _⟩ := inv_create hash lf c t0 h0 hB
  obtain ⟨t, h1, h2⟩ := run_buckets_track hash t0.table.length t0.capacity ops t0 hinv
    (Or.inl ⟨rfl, rfl⟩)
  obtain ⟨t', h3, h4⟩ := run_spec hash ops t0 hinv
  rw [h1] at h3
  cases h3
  have hlen : (HashTable.grown hash t).table.length = 3 * t.capacity := by
    rw [grown_length, Nat.mul_comm]
  exact ⟨t, _, h1, resize_eq_grown hash t h4.capacity_pos, hlen, h2,
    fun he => by rw [hlen, he]⟩

theorem growth_sizes_by_capacity_witness :
    HashTable.create 75 5 = some hash_table_uint8 ∧ 1 ≤ hash_table_uint8.table.length ∧
    ∃ t t1, HashTable.run hasher_uint8.my_hash hash_table_uint8
        [Op.insert 0, Op.insert 1, Op.insert 2, Op.insert 3, Op.insert 4, Op.insert 18,
          Op.remove 2] = some t ∧
      HashTable.resize hasher_uint8.my_hash t = some t1 ∧
      t1.table.length = 3 * t.capacity ∧
      ((t.table.length = hash_table_uint8.table.length ∧
          t.capacity = hash_table_uint8.capacity) ∨
        t.table.length = t.capacity) ∧
      (t.table.length = t.capacity → t1.table.length = 3 * t.table.length) :=
  ⟨by decide, by decide,
    growth_sizes_by_capacity hasher_uint8.my_hash 75 5 hash_table_uint8 (by decide)
      (by decide)
      [Op.insert 0, Op.insert 1, Op.insert 2, Op.insert 3, Op.insert 4, Op.insert 18,
        Op.remove 2]⟩

/-- With capacity 255 and load factor 8421505 the product 2147483775 does not fit
an `int`, and the construction yields no table. -/
theorem construction_overflows :
    (HashTable.create 8421505 255 : Option (HashTable Byte)) = none ∧
    (255 : Int) * 8421505 = 2147483775 ∧ (2 : Int) ^ 31 ≤ 2147483775 := by
  decide

/-- C13 (amended): for every capacity in 0..255 and every positive
load_factor_percent whose product with the capacity fits an `int`
(capacity * load_factor_percent < 2^31), construction yields a table with
bucket_count = floor(capacity * load_factor_percent / 100), every chain empty,
used = 0 and the capacity field equal to the supplied capacity.  Capacity 5 with
load factor 75 gives bucket_count = 3. -/
theorem construction_state (lf : Int) (c : Nat) (hc : c < 256) (hlf : 0 < lf)
    (hfit : (c : Int) * lf < 2 ^ 31) :
    (∃ t : HashTable T, HashTable.create lf c = some t ∧
      (t.table.length : Int) = (c : Int) * lf / 100 ∧ (∀ chain ∈ t.table, chain = []) ∧
      t.used = 0 ∧ t.capacity = c) ∧
    (HashTable.create 75 5 : Option (HashTable Byte)).map (fun t => t.table.length)
      = some 3 := by
  refine ⟨?_, by decide⟩
  have hmod : c % 256 = c := Nat.mod_eq_of_lt hc
  have hprod : (0 : Int) ≤ (c : Int) * lf := Int.mul_nonneg (Int.ofNat_nonneg c) hlf.le
  have hq : ((c : Int) * lf).tdiv 100 = (c : Int) * lf / 100 :=
    Int.tdiv_eq_ediv hprod (by decide)
  have hq0 : (0 : Int) ≤ (c : Int) * lf / 100 := Int.ediv_nonneg hprod (by decide)
  have h1 : ¬ ((c : Int) * lf < -(2 : Int) ^ 31 ∨ (2 : Int) ^ 31 ≤ (c : Int) * lf) := by
    intro h
    rcases h with h | h
    · have : (-(2 : Int) ^ 31) < 0 := by decide
      omega
    · omega
  refine ⟨{ table := List.replicate ((c : Int) * lf / 100).toNat [], used := 0,
            capacity := c }, ?_, ?_, ?_, rfl, rfl⟩
  · simp only [HashTable.create, hmod, h1, if_false, hq, not_lt.2 hq0]
  · simp only [List.length_replicate]
    exact Int.toNat_of_nonneg hq0
  · intro chain hchain
    exact (List.mem_replicate.1 hchain).2

theorem construction_state_witness :
    5 < 256 ∧ (0 : Int) < 75 ∧ ((5 : Nat) : Int) * 75 < 2 ^ 31 ∧
    ((∃ t : HashTable Byte, HashTable.create 75 5 = some t ∧
      (t.table.length : Int) = ((5 : Nat) : Int) * 75 / 100 ∧
      (∀ chain ∈ t.table, chain = []) ∧ t.used = 0 ∧ t.capacity = 5) ∧
    (HashTable.create 75 5 : Option (HashTable Byte)).map (fun t => t.table.length)
      = some 3) :=
  ⟨by decide, by decide, by decide, construction_state 75 5 (by decide) (by decide)
    (by decide)⟩

/-- C14: the byte table built with capacity 5 and load factor 75 holds, after the
inserts of 65, 66 and 67, the chains [66], [67], [65].  The claim has its dump
show the decimal numerals 66, 67 and 65, as the dump of the 64-bit table does for
the same three values; `operator<<` writes the letters B, C and A instead.
After the inserts of 9 and 10 the values come out as a tab and a newline, which
are the separators of the layout itself. -/
theorem byte_dump_writes_characters :
    ((HashTable.create 75 5).bind fun t0 =>
        HashTable.run hasher_uint8.my_hash t0 (([65, 66, 67] : List Byte).map Op.insert))
      = some { table := [[66], [67], [65]], used := 3, capacity := 5 } ∧
    HashTable.dump ostream_uint8 "" { table := [[66], [67], [65]], used := 3, capacity := 5 }
      = "Hash Table. Chains:3\tElements: 3\n0:\tB\t\n1:\tC\t\n2:\tA\t\n" ∧
    HashTable.dump_format (fun value : Byte => toString value.val)
        { table := [[66], [67], [65]], used := 3, capacity := 5 }
      = "Hash Table. Chains:3\tElements: 3\n0:\t66\t\n1:\t67\t\n2:\t65\t\n" ∧
    HashTable.dump ostream_uint8 "" { table := [[66], [67], [65]], used := 3, capacity := 5 }
      ≠ HashTable.dump_format (fun value : Byte => toString value.val)
          { table := [[66], [67], [65]], used := 3, capacity := 5 } ∧
    ((HashTable.create 100 5).bind fun t0 =>
        HashTable.run hasher_uint64.my_hash t0 (([65, 66, 67] : List Nat).map Op.insert)).map
        (HashTable.dump ostream_uint64 "")
      = some ("Hash Table. Chains:5\tElements: 3\n0:\t65\t67\t\n1:\t\n2:\t66\t\n"
          ++ "3:\t\n4:\t\n") ∧
    ((HashTable.create 75 5).bind fun t0 =>
        HashTable.run hasher_uint8.my_hash t0 (([9, 10] : List Byte).map Op.insert)).map
        (HashTable.dump ostream_uint8 "")
      = some "Hash Table. Chains:3\tElements: 2\n0:\t\t\t\n1:\t\n\t\n2:\t\n" := by
  decide

/-- The string hash of the empty string is 757602046, the 32-bit value of the
returned expression, and not the 64-bit value 552286701434181374 of
352654597 + 352654597 * 1566083941. -/
theorem hash_of_empty_string_wraps :
    hasher_string.my_hash [] = some 757602046 ∧
    352654597 + 352654597 * 1566083941 = 552286701434181374 ∧
    hasher_string.my_hash [] ≠ some (352654597 + 352654597 * 1566083941) := by
  decide

/-- C15 (amended): the string hash of the empty string equals
num + num2 * 1566083941 with num = num2 = 352654597 and no loop iteration
executed, computed in 32-bit unsigned arithmetic and only then widened to the
hash width: the value (352654597 + 352654597 * 1566083941) mod 2^32 = 757602046. -/
theorem empty_string_hash :
    hasher_string.my_hash []
      = some ((352654597 + 352654597 * 1566083941) % 2 ^ 32) ∧
    (352654597 + 352654597 * 1566083941) % 2 ^ 32 = 757602046 ∧
    (∀ fuel num num2 : Nat,
      hasher_string.my_hash_loop [] fuel 0 num num2 = some (num, num2)) := by
  refine ⟨by decide, by decide, fun fuel num num2 => ?_⟩
  cases fuel <;> simp [hasher_string.my_hash_loop]

/-- C16: for every string, of any length, the string hash returns a value: none of
the reads value[i], value[i+1], value[i+2], value[i+3] falls past the end of the
string (such a read would yield `none`), and the loop ends within the passes
given to it.  The same holds for the loop started at any index with enough
passes left. -/
theorem string_hash_reads_in_bounds :
    (∀ value : List Byte, ∃ h, hasher_string.my_hash value = some h) ∧
    (∀ (value : List Byte) (fuel i num num2 : Nat), value.length ≤ i + fuel →
      ∃ r, hasher_string.my_hash_loop value fuel i num num2 = some r) ∧
    hasher_string.my_hash [] = some 757602046 ∧
    hasher_string.my_hash [116, 104, 101] = some 1085214130 ∧
    hasher_string.my_hash [116, 104, 101, 200, 7] = some 2662666896 := by
  refine ⟨fun value => ?_, my_hash_loop_total, by decide, by decide, by decide⟩
  obtain ⟨r, hr⟩ := my_hash_loop_total value value.length 0 352654597 352654597
    (by omega)
  exact ⟨_, by rw [hasher_string.my_hash, hr]; rfl⟩

theorem string_hash_reads_in_bounds_witness :
    ([116, 104, 101, 200, 7] : List Byte).length ≤ 4 + 1 ∧
    ∃ r, hasher_string.my_hash_loop [116, 104, 101, 200, 7] 1 4 5 6 = some r :=
  ⟨by decide,
    string_hash_reads_in_bounds.2.1 [116, 104, 101, 200, 7] 1 4 5 6 (by decide)⟩

/-- C17: the 64-bit integer hash maps 0 to 0: the eight rounds of the byte-wise
mixer followed by the three closing steps, all wrapping at 64 bits, return 0 on
the value 0. -/
theorem uint64_hash_zero : hasher_uint64.my_hash 0 = 0 := by
  decide

/-- C18: every sequence of inserts and removes on a freshly constructed table with
at least one bucket (hence capacity >= 1) runs to the end, and the state it
reaches has used <= capacity and is in exactly one of the three states Empty
(used = 0), Populated (0 < used < capacity) and Full-threshold (used = capacity);
an insert made in the Full-threshold state returns a Populated state
(0 < used < capacity) whose capacity is strictly larger than before. -/
theorem three_states (hash : T → Nat) (lf : Int) (c : Nat)
    (t0 : HashTable T) (h0 : HashTable.create lf c = some t0) (hB : 1 ≤ t0.table.length)
    (ops : List (Op T)) :
    ∃ t, HashTable.run hash t0 ops = some t ∧ 1 ≤ t0.capacity ∧ t.used ≤ t.capacity ∧
      ((t.used = 0 ∧ ¬ (0 < t.used ∧ t.used < t.capacity) ∧ t.used ≠ t.capacity) ∨
        (t.used ≠ 0 ∧ (0 < t.used ∧ t.used < t.capacity) ∧ t.used ≠ t.capacity) ∨
        (t.used ≠ 0 ∧ ¬ (0 < t.used ∧ t.used < t.capacity) ∧ t.used = t.capacity)) ∧
      (t.used = t.capacity → ∀ v, ∃ t1, HashTable.insert hash t v = some t1 ∧
        0 < t1.used ∧ t1.used < t1.capacity ∧ t.capacity < t1.capacity) := by
  obtain ⟨hinv, hnil⟩ := inv_create hash lf c t0 h0 hB
  have hu0 : t0.used = 0 := by rw [hinv.used_eq, hnil]; rfl
  obtain ⟨t, h1, h2, h3⟩ := run_bounded hash ops t0 hinv (by rw [hu0]; exact Nat.zero_le _)
  have hcpos := h2.capacity_pos
  refine ⟨t, h1, hinv.capacity_pos, h3, by omega, fun he v => ?_⟩
  refine ⟨_, insert_of_eq hash t v hcpos he, ?_, ?_, ?_⟩
  · simp only [HashTable.push, HashTable.grown]; omega
  · simp only [HashTable.push, HashTable.grown]; omega
  · simp only [HashTable.push, HashTable.grown]; omega

theorem three_states_witness :
    HashTable.create 75 5 = some hash_table_uint8 ∧ 1 ≤ hash_table_uint8.table.length ∧
    ∃ t, HashTable.run hasher_uint8.my_hash hash_table_uint8
        [Op.insert 0, Op.insert 1, Op.insert 2, Op.remove 1, Op.insert 3, Op.insert 4,
          Op.insert 1] = some t ∧
      1 ≤ hash_table_uint8.capacity ∧ t.used ≤ t.capacity ∧
      ((t.used = 0 ∧ ¬ (0 < t.used ∧ t.used < t.capacity) ∧ t.used ≠ t.capacity) ∨
        (t.used ≠ 0 ∧ (0 < t.used ∧ t.used < t.capacity) ∧ t.used ≠ t.capacity) ∨
        (t.used ≠ 0 ∧ ¬ (0 < t.used ∧ t.used < t.capacity) ∧ t.used = t.capacity)) ∧
      (t.used = t.capacity → ∀ v, ∃ t1,
        HashTable.insert hasher_uint8.my_hash t v = some t1 ∧
        0 < t1.used ∧ t1.used < t1.capacity ∧ t.capacity < t1.capacity) :=
  ⟨by decide, by decide,
    three_states hasher_uint8.my_hash 75 5 hash_table_uint8 (by decide) (by decide)
      [Op.insert 0, Op.insert 1, Op.insert 2, Op.remove 1, Op.insert 3, Op.insert 4,
        Op.insert 1]⟩

/-- C19: for a table produced by construction with any capacity and load factor
(also when the derived bucket count is 0, and when capacity is 0) and for every
table state t whatever (the states reached from it included), an insert that
succeeds leaves bucket_count >= 1; an insert whose table has bucket count 0 after
the optional growth step returns no table (`hash % 0`), and no insert succeeds
on a table constructed with 0 buckets. -/
theorem insert_success_needs_buckets (hash : T → Nat) (lf : Int) (c : Nat)
    (t0 : HashTable T) (h0 : HashTable.create lf c = some t0) (t : HashTable T) (v : T) :
    (∀ t1, HashTable.insert hash t v = some t1 → 1 ≤ t1.table.length) ∧
    (∀ t1, HashTable.insert hash t0 v = some t1 → 1 ≤ t1.table.length) ∧
    (∀ t2, (if t.used = t.capacity then HashTable.resize hash t else some t) = some t2 →
      t2.table.length = 0 → HashTable.insert hash t v = none) ∧
    (t0.table.length = 0 → HashTable.insert hash t0 v = none) :=
  ⟨fun t1 h => insert_some_buckets hash t t1 v h,
    fun t1 h => insert_some_buckets hash t0 t1 v h,
    fun t2 hg hz => insert_none_of_no_buckets hash t t2 v hg hz,
    fun hz => insert_none_of_create_empty hash lf c t0 h0 hz v⟩

theorem insert_success_needs_buckets_witness :
    HashTable.create 10 5 = some (HashTable.mk ([] : List (List Byte)) 0 5) ∧
    ((∀ t1, HashTable.insert hasher_uint8.my_hash hash_table_uint8_filled 4 = some t1 →
        1 ≤ t1.table.length) ∧
      (∀ t1, HashTable.insert hasher_uint8.my_hash (HashTable.mk [] 0 5) 4 = some t1 →
        1 ≤ t1.table.length) ∧
      (∀ t2, (if hash_table_uint8_filled.used
              = hash_table_uint8_filled.capacity
            then HashTable.resize hasher_uint8.my_hash hash_table_uint8_filled
            else some hash_table_uint8_filled) = some t2 →
        t2.table.length = 0 →
        HashTable.insert hasher_uint8.my_hash hash_table_uint8_filled 4 = none) ∧
      ((HashTable.mk ([] : List (List Byte)) 0 5).table.length = 0 →
        HashTable.insert hasher_uint8.my_hash (HashTable.mk [] 0 5) 4 = none)) :=
  ⟨by decide,
    insert_success_needs_buckets hasher_uint8.my_hash 10 5 (HashTable.mk [] 0 5)
      (by decide) hash_table_uint8_filled 4⟩

/-- C20: on a table constructed with capacity * load_factor_percent >= 100 (so that
the initial bucket count is at least 1), every sequence of insert, contains and
remove calls runs to the end without a failing computation, and in the state it
reaches bucket_count >= 1, so that for every value `get_chain` divides by a
non-zero bucket count and its index is below the bucket count (the chain
exists), contains, insert and remove return, and resize returns with every
index hash(v) mod (3 * capacity) below the length of the new array. -/
theorem no_failing_computation (hash : T → Nat) (lf : Int) (c : Nat)
    (t0 : HashTable T) (hc : c < 256) (h100 : 100 ≤ (c : Int) * lf)
    (h0 : HashTable.create lf c = some t0) (cs : List (Call T)) :
    1 ≤ t0.table.length ∧
    ∃ t, HashTable.calls hash t0 cs = some t ∧ 1 ≤ t.table.length ∧
      ∀ v,
        (∃ key chain, HashTable.get_chain hash t v = some key ∧ key < t.table.length ∧
          t.table[key]? = some chain) ∧
        (∃ found, HashTable.contains hash t v = some found) ∧
        (∃ t1, HashTable.insert hash t v = some t1) ∧
        (∃ t1, HashTable.remove hash t v = some t1) ∧
        (∃ t1, HashTable.resize hash t = some t1 ∧
          hash v % (3 * t.capacity) < t1.table.length) := by
  have hB := create_buckets_pos lf c t0 hc h100 h0
  obtain ⟨hinv, _⟩ := inv_create hash lf c t0 h0 hB
  obtain ⟨t, h1, h2⟩ := calls_spec hash cs t0 hinv
  refine ⟨hB, t, h1, h2.buckets_pos, fun v => ⟨?_, ?_, ?_, ?_, ?_⟩⟩
  · exact ⟨_, _, get_chain_eq hash t v h2.buckets_pos, Nat.mod_lt _ h2.buckets_pos,
      getElem?_key hash t v h2.buckets_pos⟩
  · exact ⟨_, contains_eq hash t v h2.buckets_pos⟩
  · obtain ⟨t1, a, _⟩ := insert_spec hash t v h2
    exact ⟨t1, a⟩
  · obtain ⟨t1, a, _⟩ := remove_spec hash t v h2
    exact ⟨t1, a⟩
  · refine ⟨_, resize_eq_grown hash t h2.capacity_pos, ?_⟩
    rw [grown_length, Nat.mul_comm]
    exact Nat.mod_lt _ (by have := h2.capacity_pos; omega)

theorem no_failing_computation_witness :
    5 < 256 ∧ (100 : Int) ≤ ((5 : Nat) : Int) * 75 ∧
    HashTable.create 75 5 = some hash_table_uint8 ∧
    (1 ≤ hash_table_uint8.table.length ∧
    ∃ t, HashTable.calls hasher_uint8.my_hash hash_table_uint8
        [Call.contains 9, Call.remove 9, Call.insert 0, Call.insert 1, Call.insert 2,
          Call.insert 3, Call.insert 4, Call.contains 3, Call.insert 18, Call.remove 3,
          Call.contains 3] = some t ∧
      1 ≤ t.table.length ∧
      ∀ v,
        (∃ key chain, HashTable.get_chain hasher_uint8.my_hash t v = some key ∧
          key < t.table.length ∧ t.table[key]? = some chain) ∧
        (∃ found, HashTable.contains hasher_uint8.my_hash t v = some found) ∧
        (∃ t1, HashTable.insert hasher_uint8.my_hash t v = some t1) ∧
        (∃ t1, HashTable.remove hasher_uint8.my_hash t v = some t1) ∧
        (∃ t1, HashTable.resize hasher_uint8.my_hash t = some t1 ∧
          hasher_uint8.my_hash v % (3 * t.capacity) < t1.table.length)) :=
  ⟨by decide, by decide, by decide,
    no_failing_computation hasher_uint8.my_hash 75 5 hash_table_uint8 (by decide)
      (by decide) (by decide)
      [Call.contains 9, Call.remove 9, Call.insert 0, Call.insert 1, Call.insert 2,
        Call.insert 3, Call.insert 4, Call.contains 3, Call.insert 18, Call.remove 3,
        Call.contains 3]⟩

end Claims

end HashTableSimple

